import Mathlib

/-!
Verification development for `src/lib/syncMachines.js` of send2cloud/treeline.

The module exports three operations over a cache directory of "machinepacks"
(`cleanPacks`, `writePacks`, and the driver `reloadAllMachinePacks`) plus a
strictly-serial install queue (`sails.npmQueue`, an `async.queue` of
concurrency 1 whose worker runs `npm update` and toggles a process-wide
maintenance flag).

Shallow embedding conventions:
* The cache root (`machinesDir`) is modelled as an association list of
  directory entries (`MDir`).  A real directory has one entry per name; the
  entry is either a plain file or a pack subdirectory.
* A pack subdirectory holds unit files (`<master>.js`, keyed here by the
  master name), the manifest file `package.json`, and the stub `index.js`.
  These live in distinct model fields; their real file names do not collide.
* `package.json` contents are modelled structurally: the file is absent,
  malformed (exists but `JSON.parse` throws), or holds a parsed
  `PackageJson` value.  `JSON.stringify` is injective on parsed values up
  to dropping `undefined`-valued properties, and `js_beautify` is a
  whitespace normalisation (injective on the token stream), so the textual
  comparison `beautify(JSON.stringify(a)) == beautify(JSON.stringify(b))`
  performed at line 151 of the source is modelled as equality of the
  `normalizePJ` normal forms (which drop `undefined`-valued entries,
  exactly as `JSON.stringify` does).
* JavaScript `undefined` values (e.g. `master.split(':')[1]` of a key with
  no colon) are modelled as `Option.none`.
* Synchronous filesystem errors (`throw e`) abort the surrounding
  `async.each` loop: packs earlier in `Object.keys(data)` order are already
  processed, packs later are never visited.  `writePacks` therefore threads
  the partial state and stops at the first error.
-/

namespace Treeline

/-- Association list with JavaScript object semantics (string keys). -/
abbrev Assoc (α : Type) := List (String × α)

/-- Property read `obj[k]`: the first binding of `k`, if any. -/
def jsGet {α : Type} : Assoc α → String → Option α
  | [], _ => none
  | (k', v) :: rest, k => if k' = k then some v else jsGet rest k

/-- Property write `obj[k] = v`: updates the existing binding in place
(keeping its position, as JavaScript objects do) or appends a new one. -/
def jsSet {α : Type} (l : Assoc α) (k : String) (v : α) : Assoc α :=
  if (jsGet l k).isSome then
    l.map (fun p => if p.1 = k then (k, v) else p)
  else l ++ [(k, v)]

/-- `delete obj[k]` / removing a directory entry. -/
def jsRemove {α : Type} (l : Assoc α) (k : String) : Assoc α :=
  l.filter (fun p => decide (p.1 ≠ k))

/-- A unit ("machine") definition received from the server: an ordered
record of fields.  Field values are carried as their JSON source text
(the `fn` field's value is the raw function source). -/
structure UnitDef where
  fields : List (String × String)
deriving DecidableEq, Repr

/-- One pack's entry in the desired-state document:
`data[machineDir] = \x7bmachines: \x7b"master:version" -> def\x7d, dependencies: \x7b..\x7d\x7d`. -/
structure PackSpec where
  machines : Assoc UnitDef
  dependencies : Assoc String
deriving DecidableEq, Repr

/-- The desired-state document: pack name to spec, in `Object.keys` order. -/
abbrev Data := List (String × PackSpec)

/-- The `machinepack` object of a persisted `package.json` (line 114 /
lines 130, 146-147 of the source).  `machineVersions` values are
`Option String` because `master.split(':')[1]` is `undefined` when the
key has no colon. -/
structure Machinepack where
  machines : List String
  machineVersions : Assoc (Option String)
deriving DecidableEq, Repr

/-- A parsed `package.json`.  `dependencies = none` models the key being
absent from the JSON object (as in the synthesized manifest of line 114),
which `JSON.stringify` distinguishes from an empty object. -/
structure PackageJson where
  dependencies : Option (Assoc String)
  machinepack : Machinepack
deriving DecidableEq, Repr

/-- The on-disk state of a pack's `package.json` file. -/
inductive ManifestFile
  | absent
  | malformed
  | wellFormed (pj : PackageJson)
deriving DecidableEq, Repr

/-- A pack subdirectory: unit files keyed by master name (file
`<master>.js`), the manifest file, and the `index.js` stub. -/
structure PackDir where
  manifest : ManifestFile
  units : Assoc String
  index : Option String
deriving DecidableEq, Repr

/-- A directory entry of the cache root: a stray plain file or a pack
subdirectory. -/
inductive Entry
  | file
  | dir (d : PackDir)
deriving DecidableEq, Repr

/-- The cache root (`machinesDir`) contents. -/
abbrev MDir := List (String × Entry)

/-- File writes performed by the reconciler (`fs.writeFileSync` calls at
lines 144, 154 and 156 of the source). -/
inductive Write
  | unit (pack master : String)
  | manifest (pack : String)
  | index (pack : String)
deriving DecidableEq, Repr

/-- Errors thrown synchronously by `writePacks`: a manifest file that
exists but fails `JSON.parse` (rethrown at line 117), or a filesystem
error (`ENOENT`/`EPERM` from `fs.unlinkSync` at line 128, `ENOTDIR` from
`fs.readFileSync` at line 108). -/
inductive SyncError
  | malformedManifest
  | ioError (code : String)
deriving DecidableEq, Repr

/-! ## cleanPacks (lines 69-95) -/

/-- `cleanPacks`: list the cache root, erase every subdirectory whose name
is not a key of the desired-state document (`_.difference` at line 87,
`wrench.rmdirSyncRecursive(dir, true)` at line 90 — fail-silent, so plain
files in `eraseDirs` are left alone), then `return cb()` with no error
(line 92).  The second component is the value passed to the callback. -/
def cleanPacks (data : Data) (st : MDir) : MDir × Option SyncError :=
  let curDirs := data.map Prod.fst
  let names := st.map Prod.fst
  let eraseDirs := names.filter (fun n => decide (n ∉ curDirs))
  (st.filter (fun p =>
      match p.2 with
      | Entry.file => true
      | Entry.dir _ => decide (p.1 ∉ eraseDirs)), none)

/-- Lines 70-77 of the source: when `cleanPacks` receives the callback in
place of `data` (or in place of `options`), it resets `data` to the empty
object before proceeding. -/
def cleanPacksCallbackOnly (st : MDir) : MDir × Option SyncError :=
  cleanPacks [] st

/-! ## writePacks (lines 97-160) -/

/-- JavaScript `s.split(':')` on the character list: always returns at
least one field; an empty string yields `[""]`the way JavaScript does. -/
def splitColon : List Char → List (List Char)
  | [] => [[]]
  | c :: rest =>
    let r := splitColon rest
    if c = ':' then [] :: r
    else
      match r with
      | [] => [[c]]
      | f :: fs => (c :: f) :: fs

/-- `master.split(':')[0]` (lines 122, 133). -/
def splitMaster (k : String) : String :=
  String.mk ((splitColon k.data).headD [])

/-- `_master.split(':')[1]` (line 134): `undefined` when the key has no
colon. -/
def splitVersion (k : String) : Option String :=
  ((splitColon k.data).get? 1).map String.mk

/-- `js_beautify(s, \x7bindent_size: 2\x7d)` is a whitespace normalisation of
the token stream; no claim depends on the concrete whitespace, so it is
modelled as the identity. -/
def jsBeautify (s : String) : String := s

/-- Rendering of one unit file (lines 138-143): each field is emitted as
`key: JSON-literal`, except that `fn` is emitted raw and `name` is renamed
to `identity`.  Field values are carried as JSON source text, so
`JSON.stringify(val)` is the stored text itself. -/
def renderUnit (u : UnitDef) : String :=
  jsBeautify ("module.exports=\x7b\n" ++
    String.intercalate ",\n" (u.fields.map (fun p =>
      if p.1 = "fn" then "fn:" ++ p.2
      else if p.1 = "name" then "identity: " ++ p.2
      else p.1 ++ ": " ++ p.2)) ++ "\x7d")

/-- The fixed `index.js` loader stub written at line 156. -/
def indexStub : String :=
  "module.exports = require(\x27node-machine\x27).pack(\x7bpkg: require(\x27./package.json\x27), dir: __dirname\x7d);"

/-- The manifest synthesized at line 114 when `package.json` is absent:
`\x7bmachinepack: \x7bmachines: [], machineVersions: \x7b\x7d\x7d\x7d` — note there is no
`dependencies` key. -/
def emptyPackageJson : PackageJson :=
  ⟨none, ⟨[], []⟩⟩

/-- `try \x7b fs.mkdirSync(...) \x7d catch (e) \x7b\x7d` (lines 102-104): create the
pack subdirectory, swallowing the already-exists error. -/
def ensureDir (st : MDir) (n : String) : MDir :=
  match jsGet st n with
  | some _ => st
  | none => st ++ [(n, Entry.dir ⟨ManifestFile.absent, [], none⟩)]

/-- Lines 106-118: read and parse the pack's `package.json`.  `ENOENT`
(no file, or no directory at all) synthesizes the empty manifest; a
parse failure or any other filesystem error (`ENOTDIR` when the entry is
a plain file) is rethrown. -/
def readPackageJson : Option Entry → Except SyncError PackageJson
  | some Entry.file => Except.error (SyncError.ioError "ENOTDIR")
  | none => Except.ok emptyPackageJson
  | some (Entry.dir d) =>
    match d.manifest with
    | ManifestFile.absent => Except.ok emptyPackageJson
    | ManifestFile.malformed => Except.error SyncError.malformedManifest
    | ManifestFile.wellFormed pj => Except.ok pj

/-- The manifest the reconciler works with for pack `n`: what
lines 102-118 leave in `packageJson`. -/
def loadedManifest (st : MDir) (n : String) : Except SyncError PackageJson :=
  readPackageJson (jsGet (ensureDir st n) n)

/-- `JSON.stringify` drops properties whose value is `undefined`. -/
def normalizeMV (mv : Assoc (Option String)) : Assoc (Option String) :=
  mv.filter (fun p => p.2.isSome)

/-- Normal form of a manifest under `beautify(JSON.stringify(·))`:
two parsed manifests produce the same text iff their normal forms are
equal (key order is significant, an absent `dependencies` key is distinct
from an empty object, and `undefined`-valued entries are dropped). -/
def normalizePJ (pj : PackageJson) : PackageJson :=
  ⟨pj.dependencies, ⟨pj.machinepack.machines, normalizeMV pj.machinepack.machineVersions⟩⟩

/-- The `machinepack` object of `newPackageJson` accumulated by the loop
at lines 132-148: `machineVersions[master] = version` (JavaScript
property-write semantics) and `machines.push(master)` for every
`"master:version"` key, in document order.  This accumulation reads
nothing but the spec, so it is modelled as its own fold over the same
list that the unit-file writes fold over. -/
def buildStep (mp : Machinepack) (ku : String × UnitDef) : Machinepack :=
  { machines := mp.machines ++ [splitMaster ku.1],
    machineVersions := jsSet mp.machineVersions (splitMaster ku.1) (splitVersion ku.1) }

def buildMP (spec : PackSpec) : Machinepack :=
  spec.machines.foldl buildStep ⟨[], []⟩

/-- `newPackageJson` (line 130 plus the loop): the candidate manifest,
a function of the pack's spec alone. -/
def candidateManifest (spec : PackSpec) : PackageJson :=
  ⟨some spec.dependencies, buildMP spec⟩

/-- Reading `packageJson.machinepack.machineVersions[master]`: an absent
binding and an `undefined`-valued binding both read as `undefined`. -/
def mvLookup (mv : Assoc (Option String)) (master : String) : Option String :=
  (jsGet mv master).bind id

/-- The replacement test of line 137:
`!packageJson.machinepack.machineVersions[master] ||
 packageJson.machinepack.machineVersions[master] !== version`.
`undefined` and the empty string are falsy; otherwise strict string
inequality (against `undefined` when the key has no colon). -/
def shouldReplace (pj : PackageJson) (master : String) (version : Option String) : Bool :=
  match mvLookup pj.machinepack.machineVersions master with
  | none => true
  | some v => if v = "" then true else decide (some v ≠ version)

/-- One iteration of the loop at lines 132-148, restricted to its
filesystem effect: if the replacement test passes, write the rendered
unit file `<master>.js` into the pack's subdirectory (line 144),
overwriting any previous content. -/
def writeUnits (n : String) (pj : PackageJson) (acc : PackDir × List Write)
    (ku : String × UnitDef) : PackDir × List Write :=
  let master := splitMaster ku.1
  if shouldReplace pj master (splitVersion ku.1) then
    ({ acc.1 with units := jsSet acc.1.units master (renderUnit ku.2) },
     acc.2 ++ [Write.unit n master])
  else acc

/-- `fs.unlinkSync(path.join(machinesDir, master + '.js'))` (line 128).
The path does NOT include the pack subdirectory: the unlink targets an
entry of the cache root itself.  Unlinking a missing file throws
`ENOENT`; unlinking a directory throws `EPERM`. -/
def unlinkRootJs (st : MDir) (master : String) : Except SyncError MDir :=
  match jsGet st (master ++ ".js") with
  | some Entry.file => Except.ok (jsRemove st (master ++ ".js"))
  | some (Entry.dir _) => Except.error (SyncError.ioError "EPERM")
  | none => Except.error (SyncError.ioError "ENOENT")

/-- `mastersToDelete.forEach(...)` (lines 127-129): unlink each stale
master, stopping with the partial state at the first thrown error. -/
def unlinkAll (st : MDir) : List String → MDir × Option SyncError
  | [] => (st, none)
  | m :: rest =>
    match unlinkRootJs st m with
    | Except.error e => (st, some e)
    | Except.ok st' => unlinkAll st' rest

/-- Replace the entry named `n` (a write into an existing directory). -/
def setEntry (st : MDir) (n : String) (e : Entry) : MDir :=
  st.map (fun p => if p.1 = n then (n, e) else p)

/-- Outcome of (part of) a reconciliation run: final cache-root state,
file writes performed, pack directories pushed onto the install queue
(identified by pack name, standing for `path.join(machinesDir, machineDir)`),
and the first synchronously-thrown error, if any. -/
structure RunResult where
  state : MDir
  writes : List Write
  enqueued : List String
  err : Option SyncError
deriving DecidableEq, Repr

/-- Lines 121-125: `currentMasters` minus `newMasters`
(`_.difference`) — the masters recorded in the loaded manifest that no
longer occur among the spec's unit base names. -/
def staleMasters (pj : PackageJson) (spec : PackSpec) : List String :=
  (pj.machinepack.machineVersions.map Prod.fst).filter
    (fun m => decide (m ∉ spec.machines.map (fun ku => splitMaster ku.1)))

/-- The pack subdirectory currently at entry `n` (the files the unit
writes of line 144 land in). -/
def packDirAt (st : MDir) (n : String) : PackDir :=
  match jsGet st n with
  | some (Entry.dir d) => d
  | _ => ⟨ManifestFile.absent, [], none⟩

/-- Lines 130-158, after stale masters were unlinked: write changed/new
unit files while accumulating `newPackageJson`, then compare the
beautified candidate against the beautified loaded manifest
(lines 150-153): if equal, stop with no further writes and no install
task; otherwise write `package.json` (the file stores the parse of what
was printed, i.e. the normal form), write the `index.js` stub and
enqueue one install task for the pack's directory. -/
def processPackWrite (st2 : MDir) (n : String) (spec : PackSpec) (pj : PackageJson) :
    RunResult :=
  let dw := spec.machines.foldl (writeUnits n pj) (packDirAt st2 n, [])
  if normalizePJ (candidateManifest spec) = normalizePJ pj then
    ⟨setEntry st2 n (Entry.dir dw.1), dw.2, [], none⟩
  else
    ⟨setEntry st2 n (Entry.dir { dw.1 with
        manifest := ManifestFile.wellFormed (normalizePJ (candidateManifest spec)),
        index := some indexStub }),
     dw.2 ++ [Write.manifest n, Write.index n], [n], none⟩

/-- Lines 119-158, after the manifest was loaded: unlink each stale
master (the thrown error, with the partial state, aborts the pack),
then proceed to the unit/manifest writes. -/
def processPackLoaded (st1 : MDir) (n : String) (spec : PackSpec) (pj : PackageJson) :
    RunResult :=
  match unlinkAll st1 (staleMasters pj spec) with
  | (st2, some e) => ⟨st2, [], [], some e⟩
  | (st2, none) => processPackWrite st2 n spec pj

/-- Reconciliation of a single pack: the body of the `async.each`
iterator, lines 100-158.  Create the subdirectory, load the manifest
(parse and unexpected filesystem errors propagate), then diff and
write. -/
def processPack (st0 : MDir) (n : String) (spec : PackSpec) : RunResult :=
  let st1 := ensureDir st0 n
  match readPackageJson (jsGet st1 n) with
  | Except.error e => ⟨st1, [], [], some e⟩
  | Except.ok pj => processPackLoaded st1 n spec pj

/-- `writePacks` (lines 97-160): process each pack of the document in
`Object.keys` order.  All filesystem work inside the `async.each`
iterator is synchronous, so the iterators run sequentially; a thrown
error escapes the loop, leaving packs later in key order unprocessed. -/
def writePacks : Data → MDir → RunResult
  | [], st => ⟨st, [], [], none⟩
  | (n, spec) :: rest, st =>
    let r := processPack st n spec
    match r.err with
    | some e => ⟨r.state, r.writes, r.enqueued, some e⟩
    | none =>
      let r2 := writePacks rest r.state
      ⟨r2.state, r.writes ++ r2.writes, r.enqueued ++ r2.enqueued, r2.err⟩

/-- One full reconciliation pass: `cleanPacks` then `writePacks` with the
same document (lines 60-63). -/
def runFull (data : Data) (st : MDir) : RunResult :=
  writePacks data (cleanPacks data st).1

/-! ## Well-formedness side conditions -/

/-- A well-formed pack spec: every unit key is `"name:version"` with a
nonempty version, and no two keys share a base name. -/
def WFSpec (spec : PackSpec) : Prop :=
  ((spec.machines.map (fun ku => splitMaster ku.1)).Nodup) ∧
    ∀ ku ∈ spec.machines, splitVersion ku.1 ≠ none ∧ splitVersion ku.1 ≠ some ""

/-- A well-formed desired-state document: distinct pack names (it is a
JSON object) and well-formed specs. -/
def WFData (data : Data) : Prop :=
  (data.map Prod.fst).Nodup ∧ ∀ p ∈ data, WFSpec p.2

/-- A manifest value obtainable from `JSON.parse` of a real file:
distinct keys and no `undefined` values in `machineVersions`. -/
def RealizablePJ (pj : PackageJson) : Prop :=
  ((pj.machinepack.machineVersions.map Prod.fst).Nodup) ∧
    ∀ kv ∈ pj.machinepack.machineVersions, kv.2 ≠ none

/-- Realizability of a single directory entry. -/
def entryOK : Entry → Prop
  | Entry.file => True
  | Entry.dir d =>
    match d.manifest with
    | ManifestFile.wellFormed pj => RealizablePJ pj
    | _ => True

/-- A cache-root state that can exist on a real filesystem: distinct
entry names, and every stored well-formed manifest is a possible
`JSON.parse` result. -/
def RealizableState (st : MDir) : Prop :=
  ((st.map Prod.fst).Nodup) ∧ ∀ p ∈ st, entryOK p.2

instance : DecidablePred RealizablePJ := fun pj => by
  unfold RealizablePJ; infer_instance

instance : DecidablePred entryOK
  | Entry.file => Decidable.isTrue trivial
  | Entry.dir d =>
    match h : d.manifest with
    | ManifestFile.wellFormed pj => by
      have : entryOK (Entry.dir d) = RealizablePJ pj := by simp [entryOK, h]
      rw [this]; infer_instance
    | ManifestFile.absent => by
      have : entryOK (Entry.dir d) = True := by simp [entryOK, h]
      rw [this]; infer_instance
    | ManifestFile.malformed => by
      have : entryOK (Entry.dir d) = True := by simp [entryOK, h]
      rw [this]; infer_instance

instance : DecidablePred RealizableState := fun st => by
  unfold RealizableState; infer_instance

instance : DecidablePred WFSpec := fun s => by
  unfold WFSpec; infer_instance

instance : DecidablePred WFData := fun d => by
  unfold WFData; infer_instance

/-! ## The install queue (lines 10-20) and completion wiring -/

/-- Events of the `async.queue` lifecycle: `push` (line 157), a task
being picked up by the single worker (concurrency 1, line 17), and the
worker's callback firing with the `npm update` error (lines 13-16). -/
inductive QEvent
  | enqueue (dir : String)
  | start
  | complete (err : Option String)
deriving DecidableEq, Repr

/-- State of `sails.npmQueue` plus the process-wide flag
`sails.config.maintenance`. -/
structure QState where
  pending : List String
  running : Option String
  maintenance : Bool
deriving DecidableEq, Repr

/-- Queue state at process start: empty, idle, flag unset. -/
def qInit : QState := ⟨[], none, false⟩

/-- Small-step semantics of the queue.  `enqueue` only appends the task
(`async.queue` defers processing to the next tick, so the flag is NOT
touched at enqueue time).  When the worker picks a task up it first sets
`sails.config.maintenance = true` (line 11).  When a task's callback
fires and no task is pending or in flight, the queue's `drain` handler
clears the flag (lines 18-20). -/
def qstep (s : QState) : QEvent → Option QState
  | QEvent.enqueue d => some { s with pending := s.pending ++ [d] }
  | QEvent.start =>
    match s.running, s.pending with
    | none, d :: rest => some ⟨rest, some d, true⟩
    | _, _ => none
  | QEvent.complete _ =>
    match s.running with
    | some _ =>
      some ⟨s.pending, none, if s.pending.isEmpty then false else s.maintenance⟩
    | none => none

/-- Run a sequence of queue events from a state. -/
def qrun (s : QState) : List QEvent → Option QState
  | [] => some s
  | e :: rest =>
    match qstep s e with
    | some s' => qrun s' rest
    | none => none

/-- The flag values observed along a trace (initial value first). -/
def qflags (s : QState) : List QEvent → List Bool
  | [] => [s.maintenance]
  | e :: rest =>
    match qstep s e with
    | some s' => s.maintenance :: qflags s' rest
    | none => [s.maintenance]

/-- Number of value changes along a boolean trace. -/
def flips : List Bool → Nat
  | [] => 0
  | [_] => 0
  | a :: b :: rest => (if a = b then 0 else 1) + flips (b :: rest)

/-- Completion wiring of a reconciliation run (lines 60-62, 100, 152,
157-158 and 10-17).  A pack whose manifest text is unchanged calls its
`async.each` item callback synchronously with no error (line 152); a
changed pack passes that very item callback to `npmQueue.push` as the
task's completion callback (line 157), so it fires when the task's
`npm update` finishes, receiving the command's error (line 15).  The
queue is FIFO of concurrency 1, so the changed packs' callbacks fire in
enqueue order.  `async.each`'s final callback — which is `writePacks`'
`cb` and thus the top-level reconciliation callback (line 62) — fires
with the first error received, or with no error once every item callback
has fired.  Given the install errors of the enqueued tasks in queue
order, this returns the value passed to the top-level callback and the
number of install tasks that have completed when it fires. -/
def topLevelOutcome : List (Option String) → Option String × Nat
  | [] => (none, 0)
  | e :: rest =>
    match e with
    | some err => (some err, 1)
    | none =>
      let r := topLevelOutcome rest
      (r.1, r.2 + 1)

/-! ## Auxiliary state predicates -/

/-- Distinct entry names (true of every real directory listing). -/
def KeysNodup {α : Type} (l : Assoc α) : Prop :=
  (l.map Prod.fst).Nodup

/-- Every subdirectory's name belongs to `ks`. -/
def DirsIn (ks : List String) (st : MDir) : Prop :=
  ∀ p ∈ st, ∀ d : PackDir, p.2 = Entry.dir d → p.1 ∈ ks

/-! ## Concrete inputs used by the claim-level theorems -/

/-- A sample unit definition (field values carry JSON source text). -/
def sampleUnit : UnitDef := ⟨[("name", "\x22u1\x22")]⟩

/-- A well-formed one-pack document (the spec's end-to-end scenario). -/
def docPackA : Data := [("packA", ⟨[("u1:1.0", sampleUnit)], [("request", "0.2.8")]⟩)]

/-- A document in which the unit base name `a` occurs under two distinct
keys (`"a:1"` and `"a:2"`) — expressible in the documented
`"unitName:version"` key shape, and fatal to idempotence. -/
def docDupMasters : Data := [("p", ⟨[("a:1", sampleUnit), ("a:2", sampleUnit)], []⟩)]

/-- What C7 says the synthesized manifest is:
`\x7bdependencies:\x7b\x7d, units:\x7bmachines:[], machineVersions:\x7b\x7d\x7d\x7d`.  This
definition follows the claim's words, for comparison with
`emptyPackageJson`, which is translated from line 114 of the source. -/
def claimedSynthesizedManifest : PackageJson := ⟨some [], ⟨[], []⟩⟩

/-- Persisted manifest recording master `a` at version `1`. -/
def pjStaleA : PackageJson := ⟨some [], ⟨["a"], [("a", some "1")]⟩⟩

/-- Cache root with one pack `p` whose manifest records stale master `a`
and whose subdirectory still holds `a.js`; there is no root-level
`a.js`. -/
def stStaleA : MDir :=
  [("p", Entry.dir ⟨ManifestFile.wellFormed pjStaleA, [("a", "olda")], some indexStub⟩)]

/-- Desired spec for pack `p` that drops unit `a` in favour of `b`. -/
def specDropA : PackSpec := ⟨[("b:1", sampleUnit)], []⟩

/-- Persisted manifest recording master `a` at the empty-string version
(previously produced by this very system from the key `"a:"`). -/
def pjEmptyVer : PackageJson := ⟨some [], ⟨["a"], [("a", some "")]⟩⟩

/-- Cache root for the C5 counterexample. -/
def stEmptyVer : MDir :=
  [("p", Entry.dir ⟨ManifestFile.wellFormed pjEmptyVer, [("a", "olda")], some indexStub⟩)]

/-- Desired spec whose unit key `"a:"` has the empty-string version —
exactly the version recorded in `pjEmptyVer`. -/
def specEmptyVer : PackSpec := ⟨[("a:", sampleUnit)], []⟩

/-- Cache root holding a pack `bad` whose manifest file exists but fails
to parse. -/
def stMalformed : MDir := [("bad", Entry.dir ⟨ManifestFile.malformed, [], none⟩)]

/-- Document listing `a1` before and `c1` after the malformed pack. -/
def docAroundBad : Data :=
  [("a1", ⟨[("u:1", sampleUnit)], []⟩), ("bad", ⟨[], []⟩),
   ("c1", ⟨[("v:1", sampleUnit)], []⟩)]

/-- Three sequential enqueues, then the worker drains the queue one task
at a time. -/
def threeEnqueueTrace : List QEvent :=
  [QEvent.enqueue "a", QEvent.enqueue "b", QEvent.enqueue "c",
   QEvent.start, QEvent.complete none, QEvent.start, QEvent.complete none,
   QEvent.start, QEvent.complete none]

end Treeline

namespace Treeline

/-- C4: after pruning, a pack subdirectory is on disk iff it was on disk
before and its name is a key of the desired-state document (exact,
case-sensitive string match). -/
theorem claim4_prune_correct (data : Data) (st : MDir) (n : String) (d : PackDir) :
    (n, Entry.dir d) ∈ (cleanPacks data st).1 ↔
      (n, Entry.dir d) ∈ st ∧ n ∈ data.map Prod.fst := by
  simp only [cleanPacks, List.mem_filter, decide_eq_true_eq, List.mem_filter, not_and,
    not_not]
  constructor
  · rintro ⟨hmem, hkeep⟩
    exact ⟨hmem, hkeep (List.mem_map_of_mem Prod.fst hmem)⟩
  · rintro ⟨hmem, hkey⟩
    exact ⟨hmem, fun _ => hkey⟩

/-- C10: calling `cleanPacks` with the callback in the document's (or the
options') position treats the desired set as empty: every pack
subdirectory is recursively deleted, and the callback receives no error. -/
theorem claim10_callback_only_erases_all (st : MDir) (n : String) (d : PackDir) :
    (n, Entry.dir d) ∉ (cleanPacksCallbackOnly st).1 ∧
      (cleanPacksCallbackOnly st).2 = none := by
  constructor
  · intro h
    simp only [cleanPacksCallbackOnly, cleanPacks, List.mem_filter, decide_eq_true_eq,
      List.mem_filter, not_and, not_not] at h
    exact absurd (h.2 (List.mem_map_of_mem Prod.fst h.1)) (by simp)
  · rfl

/-- C1 counterexample: with the desired-state document
`\x7bp: \x7bmachines: \x7b"a:1": .., "a:2": ..\x7d\x7d\x7d` (two keys sharing the base
name `a`), the second of two identical reconciliation runs still writes
the unit file `p/a.js`: the claim's "zero filesystem writes on the
second run" is false for this document. -/
theorem claim1_counterexample :
    (runFull docDupMasters (runFull docDupMasters []).state).writes =
      [Write.unit "p" "a"] := by decide

/-- C2 counterexample: a changed pack's `async.each` item callback is the
very callback handed to `npmQueue.push` (line 157), so when its install
command exits non-zero the top-level reconciliation callback receives
that error — and it fires only after that install task completed (one
completion, not zero).  This falsifies both "never escalated to the
caller" and "without waiting for the Install Queue to drain". -/
theorem claim2_counterexample :
    (topLevelOutcome [some "Exit 1"]).1 = some "Exit 1" ∧
      (topLevelOutcome [some "Exit 1"]).2 = 1 := by decide

/-- C2 amended: the top-level callback receives no error exactly when
every enqueued install task succeeded, and in that case it fires only
after all of this run's install tasks have completed. -/
theorem claim2_amended (errs : List (Option String)) :
    ((topLevelOutcome errs).1 = none ↔ ∀ e ∈ errs, e = none) ∧
      ((∀ e ∈ errs, e = none) → (topLevelOutcome errs).2 = errs.length) := by
  induction errs with
  | nil => simp [topLevelOutcome]
  | cons e rest ih =>
    cases e with
    | some err => simp [topLevelOutcome]
    | none =>
      simp only [topLevelOutcome]
      constructor
      · simpa using ih.1
      · intro h
        simp only [List.length_cons, Nat.add_left_inj]
        exact ih.2 (fun x hx => h x (List.mem_cons_of_mem _ hx))

/-- C2 amended, witness: with two enqueued installs that both succeed,
the top-level callback fires with no error after both completions. -/
theorem claim2_amended_witness :
    (topLevelOutcome [none, none]).2 = 2 :=
  (claim2_amended [none, none]).2 (by decide)

/-- C3 (code bug): with pack `p` recording stale master `a` (file
`p/a.js` on disk) and a desired spec containing only `b:1`, the
reconciler unlinks `<machinesDir>/a.js` — line 128 omits the pack
subdirectory from the path, unlike the write at line 144 — so it throws
`ENOENT`, performs no write, and the stale unit file `p/a.js` survives,
contradicting the invariant the claim (and the code's own comment at
line 126) states. -/
theorem claim3_stale_unlink_misses_subdir :
    (processPack stStaleA "p" specDropA).err = some (SyncError.ioError "ENOENT") ∧
      jsGet (processPack stStaleA "p" specDropA).state "p" =
        some (Entry.dir ⟨ManifestFile.wellFormed pjStaleA, [("a", "olda")], some indexStub⟩) ∧
      (processPack stStaleA "p" specDropA).writes = [] := by decide

/-- C5 counterexample: unit key `"a:"` has desired version `""`, and the
persisted manifest records exactly `""` for master `a` — yet the unit
file is rewritten, because line 137's truthiness test
(`!machineVersions[master]`) treats the recorded empty string as
missing.  "Rewritten iff the key is new or the version string differs
(exact string inequality)" is therefore false. -/
theorem claim5_counterexample :
    (processPack stEmptyVer "p" specEmptyVer).writes = [Write.unit "p" "a"] ∧
      mvLookup pjEmptyVer.machinepack.machineVersions "a" = some "" ∧
      splitVersion "a:" = some "" ∧
      (processPack stEmptyVer "p" specEmptyVer).err = none := by decide

/-- C7 counterexample: the manifest synthesized at line 114 for an
absent `package.json` has NO `dependencies` key, so it is not the
claimed `\x7bdependencies:\x7b\x7d, units:\x7bmachines:[], machineVersions:\x7b\x7d\x7d\x7d`;
the difference is observable, because the canonical-text comparison of
line 151 (modelled by `normalizePJ` equality) distinguishes the two. -/
theorem claim7_counterexample :
    readPackageJson (some (Entry.dir ⟨ManifestFile.absent, [], none⟩)) =
        Except.ok emptyPackageJson ∧
      emptyPackageJson ≠ claimedSynthesizedManifest ∧
      normalizePJ emptyPackageJson ≠ normalizePJ claimedSynthesizedManifest :=
  ⟨rfl, by decide, by decide⟩

/-- C7 amended: an absent manifest file is not an error — whatever else
the pack subdirectory holds, the reconciler proceeds with the
synthesized manifest `\x7bmachinepack: \x7bmachines: [], machineVersions: \x7b\x7d\x7d\x7d`,
which carries no `dependencies` key at all. -/
theorem claim7_amended (u : Assoc String) (i : Option String) :
    readPackageJson (some (Entry.dir ⟨ManifestFile.absent, u, i⟩)) =
        Except.ok (⟨none, ⟨[], []⟩⟩ : PackageJson) ∧
      readPackageJson none = Except.ok (⟨none, ⟨[], []⟩⟩ : PackageJson) :=
  ⟨rfl, rfl⟩

/-- C8 counterexample: with `bad`'s manifest malformed and `c1` after it
in key order, the parse error escalates — but pack `c1` is never
reconciled at all (no manifest write, no directory created), refuting
"reconciliation of every other pack continues unaffected". -/
theorem claim8_counterexample :
    (writePacks docAroundBad stMalformed).err = some SyncError.malformedManifest ∧
      Write.manifest "c1" ∉ (writePacks docAroundBad stMalformed).writes ∧
      jsGet (writePacks docAroundBad stMalformed).state "c1" = none ∧
      Write.manifest "a1" ∈ (writePacks docAroundBad stMalformed).writes := by decide

/-- C9 counterexample: pushing onto the idle queue does not set the
maintenance flag — `async.queue` defers processing, and the flag is only
set by the worker (line 11) when the task starts running, so right after
the first enqueue the flag is still false, not true as claimed. -/
theorem claim9_counterexample :
    (qrun qInit [QEvent.enqueue "packA"]).map QState.maintenance = some false := by
  decide

/-- C9 amended: the flag becomes true when the first task starts
executing (not at enqueue), stays true while tasks remain pending or in
flight, and is cleared exactly at queue drain; in the three-sequential-
enqueue scenario it changes value exactly twice (one false-to-true-to-
false cycle).  The two general conjuncts: starting a task always sets
the flag; completing the last task (nothing pending) always clears it. -/
theorem claim9_amended :
    (qflags qInit threeEnqueueTrace =
        [false, false, false, false, true, true, true, true, true, false] ∧
      flips (qflags qInit threeEnqueueTrace) = 2) ∧
      (∀ (s : QState) (d : String) (rest : List String), s.running = none →
        s.pending = d :: rest → qstep s QEvent.start = some ⟨rest, some d, true⟩) ∧
      (∀ (s : QState) (e : Option String) (t : String), s.running = some t →
        s.pending = [] → qstep s (QEvent.complete e) = some ⟨[], none, false⟩) := by
  refine ⟨by decide, ?_, ?_⟩
  · intro s d rest h1 h2
    simp [qstep, h1, h2]
  · intro s e t h1 h2
    simp [qstep, h1, h2]

/-- C9 amended, witness: instantiating the general conjuncts at a
concrete queue state. -/
theorem claim9_amended_witness :
    qstep ⟨["x"], none, false⟩ QEvent.start = some ⟨[], some "x", true⟩ ∧
      qstep ⟨[], some "x", true⟩ (QEvent.complete none) = some ⟨[], none, false⟩ :=
  ⟨claim9_amended.2.1 ⟨["x"], none, false⟩ "x" [] rfl rfl,
   claim9_amended.2.2 ⟨[], some "x", true⟩ none "x" rfl rfl⟩

end Treeline


namespace Treeline

/-! ## Association-list lemmas -/

@[simp] theorem jsGet_nil {α : Type} (k : String) : jsGet ([] : Assoc α) k = none := rfl

@[simp] theorem jsGet_cons {α : Type} (a : String) (b : α) (rest : Assoc α) (k : String) :
    jsGet ((a, b) :: rest) k = if a = k then some b else jsGet rest k := rfl

theorem jsGet_append_of_some {α : Type} {l1 : Assoc α} (l2 : Assoc α) {k : String}
    {v : α} (h : jsGet l1 k = some v) : jsGet (l1 ++ l2) k = some v := by
  induction l1 with
  | nil => simp at h
  | cons p rest ih =>
    obtain ⟨a, b⟩ := p
    by_cases hak : a = k
    · simpa [hak] using h
    · simp only [jsGet_cons, hak, if_false, List.cons_append] at h ⊢
      exact ih h

theorem jsGet_append_of_none {α : Type} {l1 : Assoc α} (l2 : Assoc α) {k : String}
    (h : jsGet l1 k = none) : jsGet (l1 ++ l2) k = jsGet l2 k := by
  induction l1 with
  | nil => simp
  | cons p rest ih =>
    obtain ⟨a, b⟩ := p
    by_cases hak : a = k
    · simp [hak] at h
    · simp only [jsGet_cons, hak, if_false, List.cons_append] at h ⊢
      exact ih h

theorem jsGet_eq_none_iff {α : Type} (l : Assoc α) (k : String) :
    jsGet l k = none ↔ k ∉ l.map Prod.fst := by
  induction l with
  | nil => simp
  | cons p rest ih =>
    obtain ⟨a, b⟩ := p
    by_cases hak : a = k
    · simp [hak]
    · simp [hak, ih, Ne.symm hak]

theorem jsGet_mem {α : Type} {l : Assoc α} {k : String} {v : α}
    (h : jsGet l k = some v) : (k, v) ∈ l := by
  induction l with
  | nil => simp at h
  | cons p rest ih =>
    obtain ⟨a, b⟩ := p
    by_cases hak : a = k
    · simp only [jsGet_cons, hak, if_true, Option.some_inj] at h
      subst hak h
      exact List.mem_cons_self _ _
    · simp only [jsGet_cons, hak, if_false] at h
      exact List.mem_cons_of_mem _ (ih h)

@[simp] theorem jsRemove_nil {α : Type} (k : String) : jsRemove ([] : Assoc α) k = [] := rfl

theorem jsRemove_cons {α : Type} (a : String) (b : α) (rest : Assoc α) (k : String) :
    jsRemove ((a, b) :: rest) k =
      if a = k then jsRemove rest k else (a, b) :: jsRemove rest k := by
  simp only [jsRemove, List.filter_cons]
  by_cases hak : a = k <;> simp [hak]

theorem jsGet_jsRemove_self {α : Type} (l : Assoc α) (k : String) :
    jsGet (jsRemove l k) k = none := by
  induction l with
  | nil => simp
  | cons p rest ih =>
    obtain ⟨a, b⟩ := p
    rw [jsRemove_cons]
    by_cases hak : a = k
    · simpa [hak] using ih
    · simp [hak, ih]

theorem jsGet_jsRemove_ne {α : Type} (l : Assoc α) {m k : String} (h : m ≠ k) :
    jsGet (jsRemove l k) m = jsGet l m := by
  induction l with
  | nil => simp
  | cons p rest ih =>
    obtain ⟨a, b⟩ := p
    rw [jsRemove_cons]
    by_cases hak : a = k
    · subst hak
      simp [Ne.symm h, ih]
    · rw [if_neg hak]
      simp [ih]

theorem jsGet_jsRemove_none {α : Type} {l : Assoc α} {m : String} (k : String)
    (h : jsGet l m = none) : jsGet (jsRemove l k) m = none := by
  by_cases hmk : m = k
  · subst hmk; exact jsGet_jsRemove_self l m
  · rw [jsGet_jsRemove_ne l hmk]; exact h

theorem keysNodup_jsRemove {α : Type} {l : Assoc α} (k : String)
    (h : KeysNodup l) : KeysNodup (jsRemove l k) :=
  ((List.filter_sublist l).map Prod.fst).nodup h

theorem mem_jsRemove {α : Type} {l : Assoc α} {k : String} {p : String × α}
    (h : p ∈ jsRemove l k) : p ∈ l :=
  List.mem_of_mem_filter h

theorem keysNodup_append_singleton {α : Type} {l : Assoc α} {n : String} (e : α)
    (hN : KeysNodup l) (h : jsGet l n = none) : KeysNodup (l ++ [(n, e)]) := by
  unfold KeysNodup at hN ⊢
  rw [List.map_append, List.nodup_append]
  refine ⟨hN, by simp, ?_⟩
  intro a ha hb
  simp only [List.map_cons, List.map_nil, List.mem_singleton] at hb
  subst hb
  exact ((jsGet_eq_none_iff l a).mp h) ha

/-! ## setEntry lemmas -/

@[simp] theorem setEntry_nil (n : String) (e : Entry) : setEntry [] n e = [] := rfl

theorem setEntry_cons (a : String) (b : Entry) (rest : MDir) (n : String) (e : Entry) :
    setEntry ((a, b) :: rest) n e =
      (if a = n then (n, e) else (a, b)) :: setEntry rest n e := by
  simp only [setEntry, List.map_cons]

theorem setEntry_keys (st : MDir) (n : String) (e : Entry) :
    (setEntry st n e).map Prod.fst = st.map Prod.fst := by
  induction st with
  | nil => rfl
  | cons p rest ih =>
    obtain ⟨a, b⟩ := p
    rw [setEntry_cons]
    by_cases han : a = n
    · simp [han, ih]
    · simp [han, ih]

theorem jsGet_setEntry_self {st : MDir} {n : String} {v : Entry} (e : Entry)
    (h : jsGet st n = some v) : jsGet (setEntry st n e) n = some e := by
  induction st with
  | nil => simp at h
  | cons p rest ih =>
    obtain ⟨a, b⟩ := p
    rw [setEntry_cons]
    by_cases han : a = n
    · simp [han]
    · simp only [han, if_false, jsGet_cons]
      simp only [jsGet_cons, han, if_false] at h
      exact ih h

theorem jsGet_setEntry_ne {m n : String} (st : MDir) (e : Entry) (h : m ≠ n) :
    jsGet (setEntry st n e) m = jsGet st m := by
  induction st with
  | nil => rfl
  | cons p rest ih =>
    obtain ⟨a, b⟩ := p
    rw [setEntry_cons]
    by_cases han : a = n
    · subst han
      simp [Ne.symm h, ih, h]
    · simp [han, ih]

theorem setEntry_of_not_mem {st : MDir} {n : String} (e : Entry)
    (h : n ∉ st.map Prod.fst) : setEntry st n e = st := by
  induction st with
  | nil => rfl
  | cons p rest ih =>
    obtain ⟨a, b⟩ := p
    simp only [List.map_cons, List.mem_cons] at h
    push_neg at h
    rw [setEntry_cons, if_neg (fun hh => h.1 hh.symm), ih h.2]

theorem setEntry_eq_self {st : MDir} {n : String} {e : Entry}
    (hN : KeysNodup st) (h : jsGet st n = some e) : setEntry st n e = st := by
  induction st with
  | nil => simp at h
  | cons p rest ih =>
    obtain ⟨a, b⟩ := p
    simp only [KeysNodup, List.map_cons, List.nodup_cons] at hN
    rw [setEntry_cons]
    by_cases han : a = n
    · subst han
      rw [jsGet_cons, if_pos rfl] at h
      injection h with h
      subst h
      rw [if_pos rfl, setEntry_of_not_mem _ hN.1]
    · simp only [jsGet_cons, han, if_false] at h
      rw [if_neg han, ih hN.2 h]

theorem mem_setEntry {st : MDir} {n : String} {e : Entry} {p : String × Entry}
    (h : p ∈ setEntry st n e) : p ∈ st ∨ p = (n, e) := by
  simp only [setEntry, List.mem_map] at h
  obtain ⟨q, hq, hqe⟩ := h
  by_cases hq1 : q.1 = n
  · rw [if_pos hq1] at hqe; exact Or.inr hqe.symm
  · rw [if_neg hq1] at hqe; exact Or.inl (hqe ▸ hq)

/-! ## jsSet lemmas -/

theorem jsSet_of_none {α : Type} {l : Assoc α} {k : String} (v : α)
    (h : jsGet l k = none) : jsSet l k v = l ++ [(k, v)] := by
  simp [jsSet, h]

theorem jsSet_keys_of_some {α : Type} {l : Assoc α} {k : String} (v : α)
    (h : (jsGet l k).isSome) :
    (jsSet l k v).map Prod.fst = l.map Prod.fst := by
  simp only [jsSet, if_pos h]
  clear h
  induction l with
  | nil => rfl
  | cons p rest ih =>
    obtain ⟨a, b⟩ := p
    simp only [List.map_cons, ih]
    by_cases hak : a = k
    · simp [hak]
    · simp [hak]

theorem keysNodup_jsSet {α : Type} {l : Assoc α} (k : String) (v : α)
    (h : KeysNodup l) : KeysNodup (jsSet l k v) := by
  unfold KeysNodup
  cases hk : jsGet l k with
  | some w =>
    rw [jsSet_keys_of_some v (by simp [hk])]
    exact h
  | none =>
    rw [jsSet_of_none v hk]
    exact keysNodup_append_singleton v h hk

theorem mem_jsSet {α : Type} {l : Assoc α} {k : String} {v : α} {p : String × α}
    (h : p ∈ jsSet l k v) : p ∈ l ∨ p = (k, v) := by
  simp only [jsSet] at h
  split at h
  · simp only [List.mem_map] at h
    obtain ⟨q, hq, hqe⟩ := h
    by_cases hq1 : q.1 = k
    · rw [if_pos hq1] at hqe; exact Or.inr hqe.symm
    · rw [if_neg hq1] at hqe; exact Or.inl (hqe ▸ hq)
  · rcases List.mem_append.mp h with h1 | h1
    · exact Or.inl h1
    · simp only [List.mem_singleton] at h1; exact Or.inr h1

end Treeline

namespace Treeline

/-! ## ensureDir lemmas -/

theorem ensureDir_eq_self {st : MDir} {n : String} {e : Entry}
    (h : jsGet st n = some e) : ensureDir st n = st := by
  simp [ensureDir, h]

theorem ensureDir_get_self (st : MDir) (n : String) :
    ∃ e, jsGet (ensureDir st n) n = some e := by
  cases h : jsGet st n with
  | some e => exact ⟨e, by simp [ensureDir, h]⟩
  | none =>
    refine ⟨Entry.dir ⟨ManifestFile.absent, [], none⟩, ?_⟩
    simp only [ensureDir, h]
    rw [jsGet_append_of_none _ h]
    simp

theorem ensureDir_get_ne {m n : String} (st : MDir) (h : m ≠ n) :
    jsGet (ensureDir st n) m = jsGet st m := by
  cases hn : jsGet st n with
  | some e => simp [ensureDir, hn]
  | none =>
    simp only [ensureDir, hn]
    cases hm : jsGet st m with
    | some e => exact jsGet_append_of_some _ hm
    | none =>
      rw [jsGet_append_of_none _ hm]
      simp [Ne.symm h]

theorem keysNodup_ensureDir {st : MDir} (n : String) (h : KeysNodup st) :
    KeysNodup (ensureDir st n) := by
  cases hn : jsGet st n with
  | some e => rw [ensureDir_eq_self hn]; exact h
  | none =>
    simp only [ensureDir, hn]
    exact keysNodup_append_singleton _ h hn

theorem mem_ensureDir {st : MDir} {n : String} {p : String × Entry}
    (h : p ∈ ensureDir st n) :
    p ∈ st ∨ p = (n, Entry.dir ⟨ManifestFile.absent, [], none⟩) := by
  unfold ensureDir at h
  split at h
  · exact Or.inl h
  · rcases List.mem_append.mp h with h1 | h1
    · exact Or.inl h1
    · simp only [List.mem_singleton] at h1; exact Or.inr h1

/-! ## buildMP lemmas -/

theorem foldl_buildStep_machines (l : Assoc UnitDef) (mp : Machinepack) :
    (l.foldl buildStep mp).machines =
      mp.machines ++ l.map (fun ku => splitMaster ku.1) := by
  induction l generalizing mp with
  | nil => simp
  | cons ku rest ih =>
    simp only [List.foldl_cons, List.map_cons, ih, buildStep, List.append_assoc,
      List.singleton_append]

theorem foldl_buildStep_mv (l : Assoc UnitDef) (mp : Machinepack)
    (hnd : (l.map fun ku => splitMaster ku.1).Nodup)
    (hdisj : ∀ ku ∈ l, jsGet mp.machineVersions (splitMaster ku.1) = none) :
    (l.foldl buildStep mp).machineVersions =
      mp.machineVersions ++ l.map (fun ku => (splitMaster ku.1, splitVersion ku.1)) := by
  induction l generalizing mp with
  | nil => simp
  | cons ku rest ih =>
    simp only [List.map_cons, List.nodup_cons] at hnd
    simp only [List.foldl_cons, List.map_cons]
    rw [ih]
    · simp only [buildStep]
      rw [jsSet_of_none _ (hdisj ku (List.mem_cons_self _ _))]
      simp
    · exact hnd.2
    · intro ku' hku'
      simp only [buildStep]
      rw [jsSet_of_none _ (hdisj ku (List.mem_cons_self _ _))]
      rw [jsGet_append_of_none _ (hdisj ku' (List.mem_cons_of_mem _ hku'))]
      have hne : splitMaster ku.1 ≠ splitMaster ku'.1 := by
        intro hh
        exact hnd.1 (hh ▸ List.mem_map_of_mem (fun ku => splitMaster ku.1) hku')
      simp [hne]

theorem buildMP_machines (spec : PackSpec) :
    (buildMP spec).machines = spec.machines.map (fun ku => splitMaster ku.1) := by
  unfold buildMP
  rw [foldl_buildStep_machines]
  rfl

theorem buildMP_mv (spec : PackSpec)
    (hnd : (spec.machines.map fun ku => splitMaster ku.1).Nodup) :
    (buildMP spec).machineVersions =
      spec.machines.map (fun ku => (splitMaster ku.1, splitVersion ku.1)) := by
  unfold buildMP
  rw [foldl_buildStep_mv _ _ hnd (by intro ku _; rfl)]
  rfl

theorem foldl_buildStep_mv_keysNodup (l : Assoc UnitDef) (mp : Machinepack)
    (h : KeysNodup mp.machineVersions) :
    KeysNodup (l.foldl buildStep mp).machineVersions := by
  induction l generalizing mp with
  | nil => exact h
  | cons ku rest ih =>
    simp only [List.foldl_cons]
    exact ih _ (keysNodup_jsSet _ _ h)

theorem buildMP_mv_keys_sub (spec : PackSpec) {m : String}
    (h : m ∈ (buildMP spec).machineVersions.map Prod.fst) :
    m ∈ spec.machines.map (fun ku => splitMaster ku.1) := by
  unfold buildMP at h
  suffices hgen : ∀ (l : Assoc UnitDef) (mp : Machinepack),
      m ∈ (l.foldl buildStep mp).machineVersions.map Prod.fst →
      m ∈ mp.machineVersions.map Prod.fst ∨ m ∈ l.map (fun ku => splitMaster ku.1) by
    rcases hgen spec.machines ⟨[], []⟩ h with h1 | h1
    · simp at h1
    · exact h1
  intro l
  induction l with
  | nil => exact fun mp h => Or.inl h
  | cons ku rest ih =>
    intro mp h
    simp only [List.foldl_cons] at h
    rcases ih _ h with h1 | h1
    · simp only [buildStep] at h1
      cases hk : jsGet mp.machineVersions (splitMaster ku.1) with
      | some w =>
        rw [jsSet_keys_of_some _ (by simp [hk])] at h1
        exact Or.inl h1
      | none =>
        rw [jsSet_of_none _ hk, List.map_append] at h1
        rcases List.mem_append.mp h1 with h2 | h2
        · exact Or.inl h2
        · simp only [List.map_cons, List.map_nil, List.mem_singleton] at h2
          exact Or.inr (by simp [h2])
    · exact Or.inr (List.mem_cons_of_mem _ h1)

theorem jsGet_map_of_nodup {β : Type} (l : Assoc UnitDef)
    (f : String × UnitDef → String) (g : String × UnitDef → β)
    (hnd : (l.map f).Nodup) {ku : String × UnitDef} (hku : ku ∈ l) :
    jsGet (l.map fun x => (f x, g x)) (f ku) = some (g ku) := by
  induction l with
  | nil => simp at hku
  | cons x rest ih =>
    simp only [List.map_cons, List.nodup_cons] at hnd
    simp only [List.map_cons, jsGet_cons]
    by_cases hfx : f x = f ku
    · rw [if_pos hfx]
      rcases List.mem_cons.mp hku with rfl | hmem
      · rfl
      · exact absurd (hfx ▸ List.mem_map_of_mem f hmem) hnd.1
    · rw [if_neg hfx]
      rcases List.mem_cons.mp hku with rfl | hmem
      · exact absurd rfl hfx
      · exact ih hnd.2 hmem

/-! ## Normal-form lemmas -/

theorem normalizeMV_eq_self {mv : Assoc (Option String)}
    (h : ∀ kv ∈ mv, kv.2 ≠ none) : normalizeMV mv = mv := by
  rw [normalizeMV, List.filter_eq_self]
  intro p hp
  cases hv : p.2 with
  | some v => simp [hv]
  | none => exact absurd hv (h p hp)

theorem normalizePJ_eq_self {pj : PackageJson} (h : RealizablePJ pj) :
    normalizePJ pj = pj := by
  obtain ⟨deps, machines, mv⟩ := pj
  simp only [normalizePJ, normalizeMV_eq_self h.2]

theorem realizable_candidate {spec : PackSpec} (hWF : WFSpec spec) :
    RealizablePJ (candidateManifest spec) := by
  constructor
  · simp only [candidateManifest]
    rw [buildMP_mv spec hWF.1]
    have : (spec.machines.map fun ku => (splitMaster ku.1, splitVersion ku.1)).map Prod.fst =
        spec.machines.map fun ku => splitMaster ku.1 := by
      rw [List.map_map]; rfl
    rw [this]
    exact hWF.1
  · intro kv hkv
    simp only [candidateManifest] at hkv
    rw [buildMP_mv spec hWF.1] at hkv
    simp only [List.mem_map] at hkv
    obtain ⟨ku, hku, rfl⟩ := hkv
    exact (hWF.2 ku hku).1

theorem candidate_mv_lookup {spec : PackSpec} (hWF : WFSpec spec)
    {ku : String × UnitDef} (hku : ku ∈ spec.machines) :
    jsGet (candidateManifest spec).machinepack.machineVersions (splitMaster ku.1) =
      some (splitVersion ku.1) := by
  simp only [candidateManifest]
  rw [buildMP_mv spec hWF.1]
  exact jsGet_map_of_nodup spec.machines _ _ hWF.1 hku

theorem shouldReplace_cand_false {spec : PackSpec} (hWF : WFSpec spec)
    {ku : String × UnitDef} (hku : ku ∈ spec.machines) :
    shouldReplace (candidateManifest spec) (splitMaster ku.1) (splitVersion ku.1) = false := by
  obtain ⟨v, hv⟩ : ∃ v, splitVersion ku.1 = some v := by
    cases h : splitVersion ku.1 with
    | none => exact absurd h (hWF.2 ku hku).1
    | some v => exact ⟨v, rfl⟩
  have hv' : v ≠ "" := by
    intro h
    exact (hWF.2 ku hku).2 (by rw [hv, h])
  simp only [shouldReplace, mvLookup, candidate_mv_lookup hWF hku, hv, Option.bind_some]
  simp [hv', Option.bind]

/-! ## writeUnits fold lemmas -/

theorem foldl_writeUnits_writes (n : String) (pj : PackageJson) (l : Assoc UnitDef)
    (d : PackDir) (ws : List Write) :
    (l.foldl (writeUnits n pj) (d, ws)).2 =
      ws ++ (l.filter (fun ku => shouldReplace pj (splitMaster ku.1) (splitVersion ku.1))).map
        (fun ku => Write.unit n (splitMaster ku.1)) := by
  induction l generalizing d ws with
  | nil => simp
  | cons ku rest ih =>
    simp only [List.foldl_cons, List.filter_cons]
    by_cases h : shouldReplace pj (splitMaster ku.1) (splitVersion ku.1)
    · simp only [writeUnits, h, if_true, ih, h]
      simp [h]
    · simp only [writeUnits, h, if_false, ih]
      simp [h]

theorem foldl_writeUnits_manifest (n : String) (pj : PackageJson) (l : Assoc UnitDef)
    (d : PackDir) (ws : List Write) :
    (l.foldl (writeUnits n pj) (d, ws)).1.manifest = d.manifest ∧
      (l.foldl (writeUnits n pj) (d, ws)).1.index = d.index := by
  induction l generalizing d ws with
  | nil => exact ⟨rfl, rfl⟩
  | cons ku rest ih =>
    simp only [List.foldl_cons, writeUnits]
    by_cases h : shouldReplace pj (splitMaster ku.1) (splitVersion ku.1)
    · simp only [h, if_true]
      exact ih _ _
    · simp only [h, if_false]
      exact ih _ _

theorem foldl_writeUnits_noop (n : String) (pj : PackageJson) (l : Assoc UnitDef)
    (d : PackDir) (ws : List Write)
    (h : ∀ ku ∈ l, shouldReplace pj (splitMaster ku.1) (splitVersion ku.1) = false) :
    l.foldl (writeUnits n pj) (d, ws) = (d, ws) := by
  induction l with
  | nil => rfl
  | cons ku rest ih =>
    simp only [List.foldl_cons, writeUnits, h ku (List.mem_cons_self _ _), if_false,
      Bool.false_eq_true]
    exact ih (fun ku' hku' => h ku' (List.mem_cons_of_mem _ hku'))

end Treeline

namespace Treeline

/-! ## unlink lemmas -/

theorem unlinkRootJs_ok {st st' : MDir} {x : String}
    (h : unlinkRootJs st x = Except.ok st') :
    jsGet st (x ++ ".js") = some Entry.file ∧ st' = jsRemove st (x ++ ".js") := by
  unfold unlinkRootJs at h
  cases hg : jsGet st (x ++ ".js") with
  | none => simp only [hg] at h; exact absurd h (by simp)
  | some e =>
    cases e with
    | file =>
      simp only [hg] at h
      exact ⟨rfl, (by injection h with h; exact h.symm)⟩
    | dir d => simp only [hg] at h; exact absurd h (by simp)

theorem unlinkAll_get_none (ms : List String) {st : MDir} {k : String}
    (h : jsGet st k = none) : jsGet (unlinkAll st ms).1 k = none := by
  induction ms generalizing st with
  | nil => exact h
  | cons x rest ih =>
    simp only [unlinkAll]
    cases hu : unlinkRootJs st x with
    | error e => exact h
    | ok st1 =>
      obtain ⟨_, rfl⟩ := unlinkRootJs_ok hu
      exact ih (jsGet_jsRemove_none _ h)

theorem unlinkAll_dir_preserved (ms : List String) {st : MDir} {m : String}
    {d : PackDir} (h : jsGet st m = some (Entry.dir d)) :
    jsGet (unlinkAll st ms).1 m = some (Entry.dir d) := by
  induction ms generalizing st with
  | nil => exact h
  | cons x rest ih =>
    simp only [unlinkAll]
    cases hu : unlinkRootJs st x with
    | error e => exact h
    | ok st1 =>
      obtain ⟨hf, rfl⟩ := unlinkRootJs_ok hu
      apply ih
      have hne : m ≠ x ++ ".js" := by
        intro hh
        rw [hh, hf] at h
        exact absurd h (by simp)
      rw [jsGet_jsRemove_ne _ hne]
      exact h

theorem unlinkAll_keysNodup (ms : List String) {st : MDir}
    (h : KeysNodup st) : KeysNodup (unlinkAll st ms).1 := by
  induction ms generalizing st with
  | nil => exact h
  | cons x rest ih =>
    simp only [unlinkAll]
    cases hu : unlinkRootJs st x with
    | error e => exact h
    | ok st1 =>
      obtain ⟨_, rfl⟩ := unlinkRootJs_ok hu
      exact ih (keysNodup_jsRemove _ h)

theorem unlinkAll_mem {ms : List String} {st : MDir} {p : String × Entry}
    (h : p ∈ (unlinkAll st ms).1) : p ∈ st := by
  induction ms generalizing st with
  | nil => exact h
  | cons x rest ih =>
    simp only [unlinkAll] at h
    cases hu : unlinkRootJs st x with
    | error e => rw [hu] at h; exact h
    | ok st1 =>
      rw [hu] at h
      obtain ⟨_, rfl⟩ := unlinkRootJs_ok hu
      exact mem_jsRemove (ih h)

theorem unlinkAll_abort_again {st st' : MDir} {ms : List String} {e : SyncError}
    (h : unlinkAll st ms = (st', some e)) :
    ∃ e', unlinkAll st' ms = (st', some e') := by
  induction ms generalizing st with
  | nil => simp [unlinkAll] at h
  | cons x rest ih =>
    simp only [unlinkAll] at h
    cases hu : unlinkRootJs st x with
    | error e0 =>
      rw [hu] at h
      obtain ⟨rfl, h2⟩ : st = st' ∧ some e0 = some e := Prod.mk.injEq .. ▸ h
      exact ⟨e0, by simp only [unlinkAll, hu]⟩
    | ok st1 =>
      rw [hu] at h
      have hrec : unlinkAll st1 rest = (st', some e) := h
      have h1 : jsGet st1 (x ++ ".js") = none := by
        obtain ⟨_, rfl⟩ := unlinkRootJs_ok hu
        exact jsGet_jsRemove_self _ _
      have h2 : jsGet st' (x ++ ".js") = none := by
        have := unlinkAll_get_none rest h1
        rw [hrec] at this
        exact this
      refine ⟨SyncError.ioError "ENOENT", ?_⟩
      have hu' : unlinkRootJs st' x = Except.error (SyncError.ioError "ENOENT") := by
        unfold unlinkRootJs
        rw [h2]
      simp only [unlinkAll, hu']

/-! ## processPack stage lemmas -/

theorem processPack_of_error (st0 : MDir) {n : String} (spec : PackSpec)
    {e : SyncError}
    (h : readPackageJson (jsGet (ensureDir st0 n) n) = Except.error e) :
    processPack st0 n spec = ⟨ensureDir st0 n, [], [], some e⟩ := by
  simp only [processPack, h]

theorem processPack_of_ok {st0 : MDir} {n : String} (spec : PackSpec)
    {pj : PackageJson}
    (h : readPackageJson (jsGet (ensureDir st0 n) n) = Except.ok pj) :
    processPack st0 n spec = processPackLoaded (ensureDir st0 n) n spec pj := by
  simp only [processPack, h]

theorem processPackLoaded_of_err {st1 st2 : MDir} {n : String} {spec : PackSpec}
    {pj : PackageJson} {e : SyncError}
    (h : unlinkAll st1 (staleMasters pj spec) = (st2, some e)) :
    processPackLoaded st1 n spec pj = ⟨st2, [], [], some e⟩ := by
  simp only [processPackLoaded, h]

theorem processPackLoaded_of_ok {st1 st2 : MDir} {n : String} {spec : PackSpec}
    {pj : PackageJson}
    (h : unlinkAll st1 (staleMasters pj spec) = (st2, none)) :
    processPackLoaded st1 n spec pj = processPackWrite st2 n spec pj := by
  simp only [processPackLoaded, h]

theorem processPackWrite_unchanged {st2 : MDir} {n : String} {spec : PackSpec}
    {pj : PackageJson} (h : normalizePJ (candidateManifest spec) = normalizePJ pj) :
    processPackWrite st2 n spec pj =
      ⟨setEntry st2 n
          (Entry.dir (spec.machines.foldl (writeUnits n pj) (packDirAt st2 n, [])).1),
        (spec.machines.foldl (writeUnits n pj) (packDirAt st2 n, [])).2, [], none⟩ := by
  simp only [processPackWrite, if_pos h]

theorem processPackWrite_changed {st2 : MDir} {n : String} {spec : PackSpec}
    {pj : PackageJson} (h : ¬ normalizePJ (candidateManifest spec) = normalizePJ pj) :
    processPackWrite st2 n spec pj =
      ⟨setEntry st2 n
          (Entry.dir { (spec.machines.foldl (writeUnits n pj) (packDirAt st2 n, [])).1 with
            manifest := ManifestFile.wellFormed (normalizePJ (candidateManifest spec)),
            index := some indexStub }),
        (spec.machines.foldl (writeUnits n pj) (packDirAt st2 n, [])).2 ++
          [Write.manifest n, Write.index n], [n], none⟩ := by
  simp only [processPackWrite, if_neg h]

theorem processPackWrite_err_none (st2 : MDir) (n : String) (spec : PackSpec)
    (pj : PackageJson) : (processPackWrite st2 n spec pj).err = none := by
  simp only [processPackWrite]
  split <;> rfl

end Treeline

namespace Treeline

/-! ## processPack case analysis and preservation -/

theorem processPack_cases (st0 : MDir) (n : String) (spec : PackSpec) :
    (∃ e, readPackageJson (jsGet (ensureDir st0 n) n) = Except.error e ∧
      processPack st0 n spec = ⟨ensureDir st0 n, [], [], some e⟩) ∨
    (∃ pj st2 e, readPackageJson (jsGet (ensureDir st0 n) n) = Except.ok pj ∧
      unlinkAll (ensureDir st0 n) (staleMasters pj spec) = (st2, some e) ∧
      processPack st0 n spec = ⟨st2, [], [], some e⟩) ∨
    (∃ pj st2, readPackageJson (jsGet (ensureDir st0 n) n) = Except.ok pj ∧
      unlinkAll (ensureDir st0 n) (staleMasters pj spec) = (st2, none) ∧
      processPack st0 n spec = processPackWrite st2 n spec pj) := by
  cases hread : readPackageJson (jsGet (ensureDir st0 n) n) with
  | error e => exact Or.inl ⟨e, rfl, processPack_of_error st0 spec hread⟩
  | ok pj =>
    rcases hunl : unlinkAll (ensureDir st0 n) (staleMasters pj spec) with ⟨st2, eopt⟩
    cases eopt with
    | some e =>
      refine Or.inr (Or.inl ⟨pj, st2, e, rfl, hunl, ?_⟩)
      rw [processPack_of_ok spec hread, processPackLoaded_of_err hunl]
    | none =>
      refine Or.inr (Or.inr ⟨pj, st2, rfl, hunl, ?_⟩)
      rw [processPack_of_ok spec hread, processPackLoaded_of_ok hunl]

theorem processPack_keysNodup (st0 : MDir) (n : String) (spec : PackSpec)
    (h : KeysNodup st0) : KeysNodup (processPack st0 n spec).state := by
  have hens := keysNodup_ensureDir n h
  rcases processPack_cases st0 n spec with ⟨e, _, heq⟩ | ⟨pj, st2, e, _, hunl, heq⟩ |
    ⟨pj, st2, _, hunl, heq⟩
  · rw [heq]; exact hens
  · rw [heq]
    have h2 := unlinkAll_keysNodup (staleMasters pj spec) hens
    rw [hunl] at h2
    exact h2
  · have h2 : KeysNodup st2 := by
      have h3 := unlinkAll_keysNodup (staleMasters pj spec) hens
      rw [hunl] at h3
      exact h3
    rw [heq]
    by_cases hcmp : normalizePJ (candidateManifest spec) = normalizePJ pj
    · rw [processPackWrite_unchanged hcmp]
      unfold KeysNodup
      rw [setEntry_keys]
      exact h2
    · rw [processPackWrite_changed hcmp]
      unfold KeysNodup
      rw [setEntry_keys]
      exact h2

theorem entryOK_of_manifest_eq {d d' : PackDir} (h : d.manifest = d'.manifest)
    (hOK : entryOK (Entry.dir d)) : entryOK (Entry.dir d') := by
  simp only [entryOK] at hOK ⊢
  rw [← h]
  exact hOK

theorem realizable_normalize (pj : PackageJson)
    (h : KeysNodup pj.machinepack.machineVersions) :
    RealizablePJ (normalizePJ pj) := by
  constructor
  · exact ((List.filter_sublist _).map Prod.fst).nodup h
  · intro kv hkv
    have := List.of_mem_filter hkv
    simp only [Option.isSome_iff_exists] at this
    obtain ⟨v, hv⟩ := this
    simp [hv]

theorem cand_mv_keysNodup (spec : PackSpec) :
    KeysNodup (candidateManifest spec).machinepack.machineVersions := by
  exact foldl_buildStep_mv_keysNodup spec.machines ⟨[], []⟩ (by simp [KeysNodup])

theorem realizableState_ensureDir {st : MDir} (n : String)
    (h : RealizableState st) : RealizableState (ensureDir st n) := by
  refine ⟨keysNodup_ensureDir n h.1, ?_⟩
  intro p hp
  rcases mem_ensureDir hp with h1 | h1
  · exact h.2 p h1
  · rw [h1]
    exact trivial

theorem realizableState_unlinkAll {st : MDir} (ms : List String)
    (h : RealizableState st) : RealizableState (unlinkAll st ms).1 :=
  ⟨unlinkAll_keysNodup ms h.1, fun p hp => h.2 p (unlinkAll_mem hp)⟩

theorem entryOK_packDirAt {st : MDir} (n : String) (h : RealizableState st) :
    entryOK (Entry.dir (packDirAt st n)) := by
  unfold packDirAt
  cases hg : jsGet st n with
  | none => exact trivial
  | some e =>
    cases e with
    | file => exact trivial
    | dir d => exact h.2 (n, Entry.dir d) (jsGet_mem hg)

theorem processPack_realizable (st0 : MDir) (n : String) (spec : PackSpec)
    (h : RealizableState st0) : RealizableState (processPack st0 n spec).state := by
  refine ⟨processPack_keysNodup st0 n spec h.1, ?_⟩
  have hens := realizableState_ensureDir n h
  rcases processPack_cases st0 n spec with ⟨e, _, heq⟩ | ⟨pj, st2, e, _, hunl, heq⟩ |
    ⟨pj, st2, _, hunl, heq⟩
  · rw [heq]; exact hens.2
  · rw [heq]
    have h2 := realizableState_unlinkAll (staleMasters pj spec) hens
    rw [hunl] at h2
    exact h2.2
  · have h2 : RealizableState st2 := by
      have h3 := realizableState_unlinkAll (staleMasters pj spec) hens
      rw [hunl] at h3
      exact h3
    rw [heq]
    by_cases hcmp : normalizePJ (candidateManifest spec) = normalizePJ pj
    · rw [processPackWrite_unchanged hcmp]
      intro p hp
      rcases mem_setEntry hp with h1 | h1
      · exact h2.2 p h1
      · rw [h1]
        refine entryOK_of_manifest_eq ?_ (entryOK_packDirAt n h2)
        exact ((foldl_writeUnits_manifest n pj spec.machines _ _).1).symm
    · rw [processPackWrite_changed hcmp]
      intro p hp
      rcases mem_setEntry hp with h1 | h1
      · exact h2.2 p h1
      · rw [h1]
        exact realizable_normalize (candidateManifest spec) (cand_mv_keysNodup spec)

theorem dirsIn_of_mem {ks : List String} {st : MDir} (h : DirsIn ks st)
    {p : String × Entry} (hp : p ∈ st) : ∀ d : PackDir, p.2 = Entry.dir d → p.1 ∈ ks :=
  h p hp

theorem processPack_dirsIn (st0 : MDir) (n : String) (spec : PackSpec)
    {ks : List String} (hks : n ∈ ks) (h : DirsIn ks st0) :
    DirsIn ks (processPack st0 n spec).state := by
  have hens : DirsIn ks (ensureDir st0 n) := by
    intro p hp d hd
    rcases mem_ensureDir hp with h1 | h1
    · exact h p h1 d hd
    · rw [h1]
      exact hks
  rcases processPack_cases st0 n spec with ⟨e, _, heq⟩ | ⟨pj, st2, e, _, hunl, heq⟩ |
    ⟨pj, st2, _, hunl, heq⟩
  · rw [heq]; exact hens
  · rw [heq]
    intro p hp d hd
    have h2 : p ∈ (unlinkAll (ensureDir st0 n) (staleMasters pj spec)).1 := by
      rw [hunl]; exact hp
    exact hens p (unlinkAll_mem h2) d hd
  · have h2 : DirsIn ks st2 := by
      intro p hp d hd
      have h3 : p ∈ (unlinkAll (ensureDir st0 n) (staleMasters pj spec)).1 := by
        rw [hunl]; exact hp
      exact hens p (unlinkAll_mem h3) d hd
    rw [heq]
    by_cases hcmp : normalizePJ (candidateManifest spec) = normalizePJ pj
    · rw [processPackWrite_unchanged hcmp]
      intro p hp d hd
      rcases mem_setEntry hp with h1 | h1
      · exact h2 p h1 d hd
      · rw [h1]
        exact hks
    · rw [processPackWrite_changed hcmp]
      intro p hp d hd
      rcases mem_setEntry hp with h1 | h1
      · exact h2 p h1 d hd
      · rw [h1]
        exact hks

theorem processPack_frame {st0 : MDir} {n m : String} (spec : PackSpec)
    (hne : m ≠ n) {d : PackDir} (h : jsGet st0 m = some (Entry.dir d)) :
    jsGet (processPack st0 n spec).state m = some (Entry.dir d) := by
  have h1 : jsGet (ensureDir st0 n) m = some (Entry.dir d) := by
    rw [ensureDir_get_ne st0 hne]
    exact h
  rcases processPack_cases st0 n spec with ⟨e, _, heq⟩ | ⟨pj, st2, e, _, hunl, heq⟩ |
    ⟨pj, st2, _, hunl, heq⟩
  · rw [heq]; exact h1
  · rw [heq]
    have h2 := unlinkAll_dir_preserved (staleMasters pj spec) h1
    rw [hunl] at h2
    exact h2
  · have h2 : jsGet st2 m = some (Entry.dir d) := by
      have h3 := unlinkAll_dir_preserved (staleMasters pj spec) h1
      rw [hunl] at h3
      exact h3
    rw [heq]
    by_cases hcmp : normalizePJ (candidateManifest spec) = normalizePJ pj
    · rw [processPackWrite_unchanged hcmp]
      rw [jsGet_setEntry_ne _ _ hne]
      exact h2
    · rw [processPackWrite_changed hcmp]
      rw [jsGet_setEntry_ne _ _ hne]
      exact h2

end Treeline

namespace Treeline

/-! ## writePacks equations and preservation -/

theorem writePacks_nil (st : MDir) : writePacks [] st = ⟨st, [], [], none⟩ := rfl

theorem writePacks_cons_err {st : MDir} {n : String} {spec : PackSpec}
    (rest : Data) {e : SyncError} (h : (processPack st n spec).err = some e) :
    writePacks ((n, spec) :: rest) st =
      ⟨(processPack st n spec).state, (processPack st n spec).writes,
        (processPack st n spec).enqueued, some e⟩ := by
  simp only [writePacks, h]

theorem writePacks_cons_ok {st : MDir} {n : String} {spec : PackSpec}
    (rest : Data) (h : (processPack st n spec).err = none) :
    writePacks ((n, spec) :: rest) st =
      ⟨(writePacks rest (processPack st n spec).state).state,
        (processPack st n spec).writes ++
          (writePacks rest (processPack st n spec).state).writes,
        (processPack st n spec).enqueued ++
          (writePacks rest (processPack st n spec).state).enqueued,
        (writePacks rest (processPack st n spec).state).err⟩ := by
  simp only [writePacks, h]

theorem writePacks_keysNodup (data : Data) (st : MDir) (h : KeysNodup st) :
    KeysNodup (writePacks data st).state := by
  induction data generalizing st with
  | nil => exact h
  | cons p rest ih =>
    obtain ⟨n, spec⟩ := p
    cases herr : (processPack st n spec).err with
    | some e => rw [writePacks_cons_err rest herr]; exact processPack_keysNodup st n spec h
    | none => rw [writePacks_cons_ok rest herr]; exact ih _ (processPack_keysNodup st n spec h)

theorem writePacks_realizable (data : Data) (st : MDir) (h : RealizableState st) :
    RealizableState (writePacks data st).state := by
  induction data generalizing st with
  | nil => exact h
  | cons p rest ih =>
    obtain ⟨n, spec⟩ := p
    cases herr : (processPack st n spec).err with
    | some e => rw [writePacks_cons_err rest herr]; exact processPack_realizable st n spec h
    | none => rw [writePacks_cons_ok rest herr]; exact ih _ (processPack_realizable st n spec h)

theorem writePacks_dirsIn (data : Data) : ∀ (st : MDir) {ks : List String},
    (∀ m ∈ data.map Prod.fst, m ∈ ks) → DirsIn ks st →
    DirsIn ks (writePacks data st).state := by
  induction data with
  | nil => exact fun st _ _ h => h
  | cons p rest ih =>
    intro st ks hks h
    obtain ⟨n, spec⟩ := p
    have hn : n ∈ ks := hks n (by simp)
    have hrest : ∀ m ∈ rest.map Prod.fst, m ∈ ks := by
      intro m hm
      exact hks m (by simp [hm])
    cases herr : (processPack st n spec).err with
    | some e => rw [writePacks_cons_err rest herr]; exact processPack_dirsIn st n spec hn h
    | none => rw [writePacks_cons_ok rest herr]; exact ih _ hrest (processPack_dirsIn st n spec hn h)

theorem writePacks_frame {data : Data} {st : MDir} {n : String} {d : PackDir}
    (hn : n ∉ data.map Prod.fst) (h : jsGet st n = some (Entry.dir d)) :
    jsGet (writePacks data st).state n = some (Entry.dir d) := by
  induction data generalizing st with
  | nil => exact h
  | cons p rest ih =>
    obtain ⟨m, spec⟩ := p
    simp only [List.map_cons, List.mem_cons] at hn
    push_neg at hn
    cases herr : (processPack st m spec).err with
    | some e =>
      rw [writePacks_cons_err rest herr]
      exact processPack_frame spec hn.1 h
    | none =>
      rw [writePacks_cons_ok rest herr]
      exact ih hn.2 (processPack_frame spec hn.1 h)

/-! ## Second-run behaviour of a single pack -/

/-- A pack whose on-disk entry already carries exactly the candidate
manifest (the state any successful first run leaves behind) is a
complete no-op: no writes, no enqueue, no error, no state change. -/
theorem processPack_settled {st : MDir} {n : String} {spec : PackSpec}
    (hWF : WFSpec spec) (hN : KeysNodup st) {d' : PackDir}
    (hget : jsGet st n = some (Entry.dir d'))
    (hman : d'.manifest = ManifestFile.wellFormed (candidateManifest spec)) :
    processPack st n spec = ⟨st, [], [], none⟩ := by
  have hens : ensureDir st n = st := ensureDir_eq_self hget
  have hread : readPackageJson (jsGet (ensureDir st n) n) =
      Except.ok (candidateManifest spec) := by
    rw [hens, hget]
    simp [readPackageJson, hman]
  have hstale : staleMasters (candidateManifest spec) spec = [] := by
    rw [staleMasters, List.filter_eq_nil_iff]
    intro m hm
    simp only [decide_eq_true_eq, not_not]
    exact buildMP_mv_keys_sub spec hm
  have hunl : unlinkAll (ensureDir st n) (staleMasters (candidateManifest spec) spec) =
      (ensureDir st n, none) := by
    rw [hstale]
    rfl
  rw [processPack_of_ok spec hread, processPackLoaded_of_ok hunl,
    processPackWrite_unchanged rfl]
  have hd0 : packDirAt (ensureDir st n) n = d' := by
    rw [hens]
    simp [packDirAt, hget]
  have hnoop : spec.machines.foldl (writeUnits n (candidateManifest spec))
      (packDirAt (ensureDir st n) n, []) = (packDirAt (ensureDir st n) n, []) :=
    foldl_writeUnits_noop _ _ _ _ _ (fun ku hku => shouldReplace_cand_false hWF hku)
  rw [hnoop, hd0, hens, setEntry_eq_self hN hget]

/-- After a successful first-run reconciliation of a pack, its entry
holds a subdirectory whose manifest file is exactly the candidate
manifest. -/
theorem processPack_ok_shape {st : MDir} {n : String} {spec : PackSpec}
    (hWF : WFSpec spec) (hReal : RealizableState st)
    (herr : (processPack st n spec).err = none) :
    ∃ d', jsGet (processPack st n spec).state n = some (Entry.dir d') ∧
      d'.manifest = ManifestFile.wellFormed (candidateManifest spec) := by
  rcases processPack_cases st n spec with ⟨e, _, heq⟩ | ⟨pj, st2, e, _, hunl, heq⟩ |
    ⟨pj, st2, hread, hunl, heq⟩
  · rw [heq] at herr
    simp at herr
  · rw [heq] at herr
    simp at herr
  · -- the loaded manifest comes from a directory entry
    obtain ⟨e0, hg1⟩ := ensureDir_get_self st n
    cases e0 with
    | file =>
      rw [hg1] at hread
      simp [readPackageJson] at hread
    | dir dX =>
      have hg2 : jsGet st2 n = some (Entry.dir dX) := by
        have h3 := unlinkAll_dir_preserved (staleMasters pj spec) hg1
        rw [hunl] at h3
        exact h3
      have hd0 : packDirAt st2 n = dX := by
        simp [packDirAt, hg2]
      by_cases hcmp : normalizePJ (candidateManifest spec) = normalizePJ pj
      · -- text-identical: no manifest write, the old manifest must
        -- already be the candidate
        have hpj : dX.manifest = ManifestFile.wellFormed pj ∧ RealizablePJ pj := by
          cases hman : dX.manifest with
          | malformed =>
            rw [hg1] at hread
            simp [readPackageJson, hman] at hread
          | absent =>
            rw [hg1] at hread
            simp only [readPackageJson, hman, Except.ok.injEq] at hread
            subst hread
            exact absurd (congrArg PackageJson.dependencies hcmp) (by
              simp [normalizePJ, candidateManifest, emptyPackageJson])
          | wellFormed pjX =>
            rw [hg1] at hread
            simp only [readPackageJson, hman, Except.ok.injEq] at hread
            subst hread
            refine ⟨rfl, ?_⟩
            have hdXmem : (n, Entry.dir dX) ∈ st ∨
                dX = (⟨ManifestFile.absent, [], none⟩ : PackDir) := by
              cases hst : jsGet st n with
              | some e1 =>
                rw [ensureDir_eq_self hst, hst] at hg1
                injection hg1 with hg1
                rw [hg1] at hst
                exact Or.inl (jsGet_mem hst)
              | none =>
                have hnew : jsGet (ensureDir st n) n =
                    some (Entry.dir ⟨ManifestFile.absent, [], none⟩) := by
                  simp only [ensureDir, hst]
                  rw [jsGet_append_of_none _ hst]
                  simp
                rw [hnew] at hg1
                injection hg1 with hg1
                injection hg1 with hg1
                exact Or.inr hg1.symm
            rcases hdXmem with hmem | hdef
            · have := hReal.2 _ hmem
              simp only [entryOK, hman] at this
              exact this
            · rw [hdef] at hman
              simp at hman
        have hpjc : pj = candidateManifest spec := by
          have h1 := normalizePJ_eq_self (realizable_candidate hWF)
          have h2 := normalizePJ_eq_self hpj.2
          rw [h1, h2] at hcmp
          exact hcmp.symm
        rw [heq, processPackWrite_unchanged hcmp]
        refine ⟨(spec.machines.foldl (writeUnits n pj) (packDirAt st2 n, [])).1,
          jsGet_setEntry_self _ hg2, ?_⟩
        rw [(foldl_writeUnits_manifest n pj spec.machines _ _).1, hd0, hpj.1, hpjc]
      · rw [heq, processPackWrite_changed hcmp]
        refine ⟨_, jsGet_setEntry_self _ hg2, ?_⟩
        simp only
        rw [normalizePJ_eq_self (realizable_candidate hWF)]

/-- A pack whose first-run reconciliation aborted aborts again from the
state it left behind, without further writes or state changes. -/
theorem processPack_abort_again {st : MDir} {n : String} {spec : PackSpec}
    {e : SyncError} (herr : (processPack st n spec).err = some e) :
    ∃ e', processPack (processPack st n spec).state n spec =
      ⟨(processPack st n spec).state, [], [], some e'⟩ := by
  rcases processPack_cases st n spec with ⟨e1, hread, heq⟩ | ⟨pj, st2, e1, hread, hunl, heq⟩ |
    ⟨pj, st2, hread, hunl, heq⟩
  · -- load failed: same failure again
    obtain ⟨e0, hg1⟩ := ensureDir_get_self st n
    have hens2 : ensureDir (ensureDir st n) n = ensureDir st n := ensureDir_eq_self hg1
    have hread2 : readPackageJson (jsGet (ensureDir (ensureDir st n) n) n) =
        Except.error e1 := by
      rw [hens2]
      exact hread
    rw [heq]
    have h2 := processPack_of_error (ensureDir st n) spec hread2
    rw [hens2] at h2
    exact ⟨e1, h2⟩
  · -- a stale-master unlink failed: the first stale master's root file
    -- is now gone (or still a directory), so the unlink fails again
    obtain ⟨e0, hg1⟩ := ensureDir_get_self st n
    cases e0 with
    | file =>
      rw [hg1] at hread
      simp [readPackageJson] at hread
    | dir dX =>
      have hg2 : jsGet st2 n = some (Entry.dir dX) := by
        have h3 := unlinkAll_dir_preserved (staleMasters pj spec) hg1
        rw [hunl] at h3
        exact h3
      have hens2 : ensureDir st2 n = st2 := ensureDir_eq_self hg2
      have hread2 : readPackageJson (jsGet (ensureDir st2 n) n) = Except.ok pj := by
        rw [hens2, hg2]
        rw [hg1] at hread
        exact hread
      obtain ⟨e', hunl2⟩ := unlinkAll_abort_again hunl
      rw [heq]
      refine ⟨e', ?_⟩
      rw [processPack_of_ok spec hread2]
      have hunl2' : unlinkAll (ensureDir st2 n) (staleMasters pj spec) = (st2, some e') := by
        rw [hens2]
        exact hunl2
      exact processPackLoaded_of_err hunl2'
  · rw [heq, processPackWrite_err_none] at herr
    exact absurd herr (by simp)

end Treeline

namespace Treeline

/-! ## The whole second run -/

/-- Running `writePacks` a second time over the state the first run left
behind performs no writes and changes nothing. -/
theorem writePacks_twice (data : Data) : ∀ (st : MDir), WFData data →
    RealizableState st →
    (writePacks data (writePacks data st).state).writes = [] ∧
      (writePacks data (writePacks data st).state).state = (writePacks data st).state := by
  induction data with
  | nil => exact fun st _ _ => ⟨rfl, rfl⟩
  | cons p rest ih =>
    intro st hWF hReal
    obtain ⟨n, spec⟩ := p
    have hWFspec : WFSpec spec := hWF.2 (n, spec) (by simp)
    have hWFrest : WFData rest := by
      refine ⟨?_, fun q hq => hWF.2 q (List.mem_cons_of_mem _ hq)⟩
      have := hWF.1
      simp only [List.map_cons, List.nodup_cons] at this
      exact this.2
    have hnrest : n ∉ rest.map Prod.fst := by
      have := hWF.1
      simp only [List.map_cons, List.nodup_cons] at this
      exact this.1
    cases herr : (processPack st n spec).err with
    | some e =>
      -- first run aborted at this pack; the second run aborts there too
      rw [writePacks_cons_err rest herr]
      obtain ⟨e', habort⟩ := processPack_abort_again herr
      have herr2 : (processPack (processPack st n spec).state n spec).err = some e' := by
        rw [habort]
      rw [writePacks_cons_err rest herr2, habort]
      exact ⟨rfl, rfl⟩
    | none =>
      rw [writePacks_cons_ok rest herr]
      -- shape of the pack's entry after its successful first run
      obtain ⟨d', hget1, hman⟩ := processPack_ok_shape hWFspec hReal herr
      have hRealMid := processPack_realizable st n spec hReal
      have hNodMid : KeysNodup (processPack st n spec).state := hRealMid.1
      -- the entry survives the remaining packs of the first run
      have hget2 : jsGet (writePacks rest (processPack st n spec).state).state n =
          some (Entry.dir d') := writePacks_frame hnrest hget1
      have hRealEnd := writePacks_realizable rest _ hRealMid
      -- the second run's visit of this pack is a complete no-op
      have hsettle := processPack_settled hWFspec hRealEnd.1 hget2 hman
      have herr2 : (processPack (writePacks rest (processPack st n spec).state).state
          n spec).err = none := by
        rw [hsettle]
      rw [writePacks_cons_ok rest herr2, hsettle]
      obtain ⟨ihw, ihs⟩ := ih (processPack st n spec).state hWFrest hRealMid
      exact ⟨by simp [ihw], by simp [ihs]⟩

/-! ## cleanPacks auxiliary lemmas -/

theorem cleanPacks_mem {data : Data} {st : MDir} {p : String × Entry}
    (h : p ∈ (cleanPacks data st).1) : p ∈ st :=
  List.mem_of_mem_filter h

theorem cleanPacks_keysNodup (data : Data) {st : MDir} (h : KeysNodup st) :
    KeysNodup (cleanPacks data st).1 :=
  ((List.filter_sublist st).map Prod.fst).nodup h

theorem cleanPacks_realizable (data : Data) {st : MDir} (h : RealizableState st) :
    RealizableState (cleanPacks data st).1 :=
  ⟨cleanPacks_keysNodup data h.1, fun p hp => h.2 p (cleanPacks_mem hp)⟩

theorem cleanPacks_dirsIn (data : Data) (st : MDir) :
    DirsIn (data.map Prod.fst) (cleanPacks data st).1 := by
  intro p hp d hd
  simp only [cleanPacks, List.mem_filter] at hp
  obtain ⟨hmem, hkeep⟩ := hp
  rw [hd] at hkeep
  simp only [decide_eq_true_eq, List.mem_filter, not_and, not_not] at hkeep
  exact hkeep (List.mem_map_of_mem Prod.fst hmem)

theorem cleanPacks_of_dirsIn {data : Data} {st : MDir}
    (h : DirsIn (data.map Prod.fst) st) : cleanPacks data st = (st, none) := by
  simp only [cleanPacks, Prod.mk.injEq, and_true]
  rw [List.filter_eq_self]
  intro p hp
  cases he : p.2 with
  | file => rfl
  | dir d =>
    simp only [decide_eq_true_eq, List.mem_filter, not_and, not_not]
    intro _
    exact h p hp d he

end Treeline

namespace Treeline

/-! ## Claim-level theorems over the full model -/

theorem shouldReplace_iff (pj : PackageJson) (master : String) (version : Option String) :
    shouldReplace pj master version = true ↔
      (mvLookup pj.machinepack.machineVersions master = none ∨
       mvLookup pj.machinepack.machineVersions master = some "" ∨
       mvLookup pj.machinepack.machineVersions master ≠ version) := by
  unfold shouldReplace
  cases h : mvLookup pj.machinepack.machineVersions master with
  | none => simp
  | some v =>
    by_cases hv : v = ""
    · simp [hv]
    · simp [hv]

theorem mem_unit_writes_iff (n : String) (pj : PackageJson) (spec : PackSpec)
    (st2 : MDir) (master : String) :
    Write.unit n master ∈
        (spec.machines.foldl (writeUnits n pj) (packDirAt st2 n, [])).2 ↔
      ∃ ku ∈ spec.machines, splitMaster ku.1 = master ∧
        shouldReplace pj (splitMaster ku.1) (splitVersion ku.1) = true := by
  rw [foldl_writeUnits_writes]
  simp only [List.nil_append, List.mem_map, List.mem_filter, Write.unit.injEq, true_and]
  constructor
  · rintro ⟨ku, ⟨hmem, hrep⟩, hmaster⟩
    exact ⟨ku, hmem, hmaster, hrep⟩
  · rintro ⟨ku, hmem, hmaster, hrep⟩
    exact ⟨ku, ⟨hmem, hrep⟩, hmaster⟩

theorem manifest_not_mem_unit_writes (n : String) (pj : PackageJson) (spec : PackSpec)
    (st2 : MDir) :
    Write.manifest n ∉
        (spec.machines.foldl (writeUnits n pj) (packDirAt st2 n, [])).2 ∧
      Write.index n ∉
        (spec.machines.foldl (writeUnits n pj) (packDirAt st2 n, [])).2 := by
  rw [foldl_writeUnits_writes]
  simp

/-- C1 amended: reconciliation is idempotent provided the document is
well-formed — every unit key carries a colon and a nonempty version, no
two unit keys of a pack share a base name, pack names are distinct — and
the starting state is one a real filesystem can hold.  Then the second
of two identical runs performs zero file writes (no unit file, no
`package.json`, no index file). -/
theorem claim1_idempotent_amended (data : Data) (st : MDir) (hWF : WFData data)
    (hReal : RealizableState st) :
    (runFull data (runFull data st).state).writes = [] := by
  have hReal1 : RealizableState (cleanPacks data st).1 := cleanPacks_realizable data hReal
  have hdirsF : DirsIn (data.map Prod.fst)
      (writePacks data (cleanPacks data st).1).state :=
    writePacks_dirsIn data _ (fun m hm => hm) (cleanPacks_dirsIn data st)
  have hclean2 := cleanPacks_of_dirsIn hdirsF
  have hmain := (writePacks_twice data (cleanPacks data st).1 hWF hReal1).1
  show (writePacks data
      (cleanPacks data (writePacks data (cleanPacks data st).1).state).1).writes = []
  rw [hclean2]
  exact hmain

/-- C1 amended, witness: the spec's end-to-end document, reconciled
twice from the empty cache root. -/
theorem claim1_idempotent_amended_witness :
    WFData docPackA ∧ RealizableState ([] : MDir) ∧
      (runFull docPackA (runFull docPackA []).state).writes = [] :=
  ⟨by decide, by decide, claim1_idempotent_amended docPackA [] (by decide) (by decide)⟩

/-- C5 amended: during a successful reconciliation of a pack, the unit
file of base name `master` is written iff some desired unit key has that
base name and the persisted manifest either records no version for it,
records the empty string, or records a version that differs (strict
string comparison, where a colon-less key's desired version is
`undefined`).  In particular a unit whose recorded version equals its
nonempty desired version is not rewritten even if its definition body
changed — and the write decision never inspects the body. -/
theorem claim5_rewrite_condition_amended (st : MDir) (n : String) (spec : PackSpec)
    (pj : PackageJson) (h : loadedManifest st n = Except.ok pj)
    (hok : (processPack st n spec).err = none) (master : String) :
    Write.unit n master ∈ (processPack st n spec).writes ↔
      ∃ ku ∈ spec.machines, splitMaster ku.1 = master ∧
        (mvLookup pj.machinepack.machineVersions master = none ∨
         mvLookup pj.machinepack.machineVersions master = some "" ∨
         mvLookup pj.machinepack.machineVersions master ≠ splitVersion ku.1) := by
  have hread : readPackageJson (jsGet (ensureDir st n) n) = Except.ok pj := h
  rcases processPack_cases st n spec with ⟨e, hread', heq⟩ | ⟨pj', st2, e, hread', hunl, heq⟩ |
    ⟨pj', st2, hread', hunl, heq⟩
  · rw [hread] at hread'
    exact absurd hread' (by simp)
  · rw [heq] at hok
    exact absurd hok (by simp)
  · obtain rfl : pj = pj' := by
      rw [hread] at hread'
      exact Except.ok.inj hread'
    have hiff : ∀ ku ∈ spec.machines,
        (splitMaster ku.1 = master ∧
          shouldReplace pj (splitMaster ku.1) (splitVersion ku.1) = true) ↔
        (splitMaster ku.1 = master ∧
          (mvLookup pj.machinepack.machineVersions master = none ∨
           mvLookup pj.machinepack.machineVersions master = some "" ∨
           mvLookup pj.machinepack.machineVersions master ≠ splitVersion ku.1)) := by
      intro ku _
      constructor
      · rintro ⟨rfl, hrep⟩
        exact ⟨rfl, (shouldReplace_iff pj _ _).mp hrep⟩
      · rintro ⟨rfl, hcond⟩
        exact ⟨rfl, (shouldReplace_iff pj _ _).mpr hcond⟩
    by_cases hcmp : normalizePJ (candidateManifest spec) = normalizePJ pj
    · rw [heq, processPackWrite_unchanged hcmp]
      rw [show (⟨setEntry st2 n
          (Entry.dir (spec.machines.foldl (writeUnits n pj) (packDirAt st2 n, [])).1),
          (spec.machines.foldl (writeUnits n pj) (packDirAt st2 n, [])).2, [], none⟩ :
          RunResult).writes =
          (spec.machines.foldl (writeUnits n pj) (packDirAt st2 n, [])).2 from rfl]
      rw [mem_unit_writes_iff]
      constructor
      · rintro ⟨ku, hmem, hcond⟩
        exact ⟨ku, hmem, (hiff ku hmem).mp hcond⟩
      · rintro ⟨ku, hmem, hcond⟩
        exact ⟨ku, hmem, (hiff ku hmem).mpr hcond⟩
    · rw [heq, processPackWrite_changed hcmp]
      have hsplit : Write.unit n master ∈
          ((spec.machines.foldl (writeUnits n pj) (packDirAt st2 n, [])).2 ++
            [Write.manifest n, Write.index n]) ↔
          Write.unit n master ∈
            (spec.machines.foldl (writeUnits n pj) (packDirAt st2 n, [])).2 := by
        simp
      rw [show (⟨setEntry st2 n
          (Entry.dir { (spec.machines.foldl (writeUnits n pj) (packDirAt st2 n, [])).1 with
            manifest := ManifestFile.wellFormed (normalizePJ (candidateManifest spec)),
            index := some indexStub }),
          (spec.machines.foldl (writeUnits n pj) (packDirAt st2 n, [])).2 ++
            [Write.manifest n, Write.index n], [n], none⟩ : RunResult).writes =
          (spec.machines.foldl (writeUnits n pj) (packDirAt st2 n, [])).2 ++
            [Write.manifest n, Write.index n] from rfl]
      rw [hsplit, mem_unit_writes_iff]
      constructor
      · rintro ⟨ku, hmem, hcond⟩
        exact ⟨ku, hmem, (hiff ku hmem).mp hcond⟩
      · rintro ⟨ku, hmem, hcond⟩
        exact ⟨ku, hmem, (hiff ku hmem).mpr hcond⟩

/-- C5 amended, witness: at the empty-version input the unit is written
and the disjunction holds through its second disjunct. -/
theorem claim5_rewrite_condition_amended_witness :
    Write.unit "p" "a" ∈ (processPack stEmptyVer "p" specEmptyVer).writes ↔
      ∃ ku ∈ specEmptyVer.machines, splitMaster ku.1 = "a" ∧
        (mvLookup pjEmptyVer.machinepack.machineVersions "a" = none ∨
         mvLookup pjEmptyVer.machinepack.machineVersions "a" = some "" ∨
         mvLookup pjEmptyVer.machinepack.machineVersions "a" ≠ splitVersion ku.1) :=
  claim5_rewrite_condition_amended stEmptyVer "p" specEmptyVer pjEmptyVer rfl
    (by decide) "a"

/-- C6: once the candidate manifest is built, if its canonical text
equals the loaded manifest's canonical text, then no `package.json`
write, no index write and no install enqueue happen for the pack;
otherwise (provided the pack's reconciliation did not abort earlier)
both files are written and exactly one install task carrying the pack's
directory is enqueued. -/
theorem claim6_manifest_comparison (st : MDir) (n : String) (spec : PackSpec)
    (pj : PackageJson) (h : loadedManifest st n = Except.ok pj) :
    (normalizePJ (candidateManifest spec) = normalizePJ pj →
      Write.manifest n ∉ (processPack st n spec).writes ∧
      Write.index n ∉ (processPack st n spec).writes ∧
      (processPack st n spec).enqueued = []) ∧
    (normalizePJ (candidateManifest spec) ≠ normalizePJ pj →
      (processPack st n spec).err = none →
      Write.manifest n ∈ (processPack st n spec).writes ∧
      Write.index n ∈ (processPack st n spec).writes ∧
      (processPack st n spec).enqueued = [n]) := by
  have hread : readPackageJson (jsGet (ensureDir st n) n) = Except.ok pj := h
  rcases processPack_cases st n spec with ⟨e, hread', heq⟩ | ⟨pj', st2, e, hread', hunl, heq⟩ |
    ⟨pj', st2, hread', hunl, heq⟩
  · rw [hread] at hread'
    exact absurd hread' (by simp)
  · -- the pack aborted while unlinking stale masters: nothing was
    -- written and nothing enqueued, and the err-free case is vacuous
    constructor
    · intro _
      rw [heq]
      exact ⟨by simp, by simp, rfl⟩
    · intro _ hok
      rw [heq] at hok
      exact absurd hok (by simp)
  · obtain rfl : pj = pj' := by
      rw [hread] at hread'
      exact Except.ok.inj hread'
    constructor
    · intro hcmp
      rw [heq, processPackWrite_unchanged hcmp]
      refine ⟨?_, ?_, rfl⟩
      · exact (manifest_not_mem_unit_writes n pj spec st2).1
      · exact (manifest_not_mem_unit_writes n pj spec st2).2
    · intro hcmp _
      rw [heq, processPackWrite_changed hcmp]
      refine ⟨?_, ?_, rfl⟩
      · simp
      · simp

/-- C6, witness: the end-to-end pack against an empty cache root takes
the "changed" branch: manifest and index written, one task enqueued. -/
theorem claim6_manifest_comparison_witness :
    Write.manifest "packA" ∈ (processPack [] "packA"
        ⟨[("u1:1.0", sampleUnit)], [("request", "0.2.8")]⟩).writes ∧
      Write.index "packA" ∈ (processPack [] "packA"
        ⟨[("u1:1.0", sampleUnit)], [("request", "0.2.8")]⟩).writes ∧
      (processPack [] "packA"
        ⟨[("u1:1.0", sampleUnit)], [("request", "0.2.8")]⟩).enqueued = ["packA"] :=
  (claim6_manifest_comparison [] "packA" ⟨[("u1:1.0", sampleUnit)], [("request", "0.2.8")]⟩
    emptyPackageJson rfl).2 (by decide) (by decide)

/-- C8 amended: a manifest file that exists but fails to parse makes
that pack's reconciliation abort and the thrown error escalate to the
caller; packs earlier in key order were already reconciled before the
throw, but every pack later in key order is skipped entirely (no state
change, no writes, no enqueues from the aborted pack onwards). -/
theorem claim8_malformed_aborts_rest_amended (st : MDir) (n : String) (spec : PackSpec)
    (rest : Data) (dd : PackDir) (h1 : jsGet st n = some (Entry.dir dd))
    (h2 : dd.manifest = ManifestFile.malformed) :
    writePacks ((n, spec) :: rest) st =
      ⟨st, [], [], some SyncError.malformedManifest⟩ := by
  have hens : ensureDir st n = st := ensureDir_eq_self h1
  have hread : readPackageJson (jsGet (ensureDir st n) n) =
      Except.error SyncError.malformedManifest := by
    rw [hens, h1]
    simp [readPackageJson, h2]
  have hp := processPack_of_error st spec hread
  rw [hens] at hp
  have herr : (processPack st n spec).err = some SyncError.malformedManifest := by
    rw [hp]
  rw [writePacks_cons_err rest herr, hp]

/-- C8 amended, witness: the malformed pack `bad` aborts a run in which
a further pack was still pending. -/
theorem claim8_malformed_aborts_rest_amended_witness :
    writePacks [("bad", ⟨[], []⟩), ("c1", ⟨[("v:1", sampleUnit)], []⟩)] stMalformed =
      ⟨stMalformed, [], [], some SyncError.malformedManifest⟩ :=
  claim8_malformed_aborts_rest_amended stMalformed "bad" ⟨[], []⟩
    [("c1", ⟨[("v:1", sampleUnit)], []⟩)] ⟨ManifestFile.malformed, [], none⟩ rfl rfl

end Treeline

namespace Treeline

/-- C4, witness: pruning a two-entry cache root against a one-pack
document keeps exactly the desired pack. -/
theorem claim4_prune_correct_witness :
    (("p", Entry.dir ⟨ManifestFile.absent, [], none⟩) ∈
        (cleanPacks [("p", ⟨[], []⟩)]
          [("p", Entry.dir ⟨ManifestFile.absent, [], none⟩),
           ("q", Entry.dir ⟨ManifestFile.absent, [], none⟩)]).1 ↔
      ("p", Entry.dir ⟨ManifestFile.absent, [], none⟩) ∈
          ([("p", Entry.dir ⟨ManifestFile.absent, [], none⟩),
            ("q", Entry.dir ⟨ManifestFile.absent, [], none⟩)] : MDir) ∧
        "p" ∈ ([("p", (⟨[], []⟩ : PackSpec))] : Data).map Prod.fst) :=
  claim4_prune_correct [("p", ⟨[], []⟩)]
    [("p", Entry.dir ⟨ManifestFile.absent, [], none⟩),
     ("q", Entry.dir ⟨ManifestFile.absent, [], none⟩)] "p"
    ⟨ManifestFile.absent, [], none⟩

/-- C10, witness: the one-pack cache root is emptied of subdirectories
when the callback stands in for the document. -/
theorem claim10_callback_only_erases_all_witness :
    ("p", Entry.dir ⟨ManifestFile.absent, [], none⟩) ∉
        (cleanPacksCallbackOnly [("p", Entry.dir ⟨ManifestFile.absent, [], none⟩)]).1 ∧
      (cleanPacksCallbackOnly [("p", Entry.dir ⟨ManifestFile.absent, [], none⟩)]).2 =
        none :=
  claim10_callback_only_erases_all [("p", Entry.dir ⟨ManifestFile.absent, [], none⟩)]
    "p" ⟨ManifestFile.absent, [], none⟩

/-- C7 amended, witness: a pack directory with units on disk but no
manifest file loads as the dependency-less synthesized manifest. -/
theorem claim7_amended_witness :
    readPackageJson (some (Entry.dir ⟨ManifestFile.absent, [("a", "olda")], none⟩)) =
      Except.ok (⟨none, ⟨[], []⟩⟩ : PackageJson) :=
  (claim7_amended [("a", "olda")] none).1

end Treeline
